import Mathlib

/-!
# Verification of the slide-generation service

A shallow embedding, in Lean 4, of the queue and slide-generation logic of
the repository (`src/lib/services/QueueService.ts`,
`src/lib/services/SlideGenerationService.ts`,
`src/app/api/generate-slides/route.ts`), together with theorems settling
the specification claims about that code.

JavaScript values are modelled by the inductive type `JSVal` (numbers as
integers; floating point is not needed by any claim).  Code that can throw
is modelled in the `Except` monad.
-/

set_option maxRecDepth 10000

/-- A JavaScript runtime value.  Numbers are modelled as integers: none of
the verified code paths depends on fractional or non-finite numbers. -/
inductive JSVal where
  | undef : JSVal
  | null : JSVal
  | bool : Bool → JSVal
  | num : Int → JSVal
  | str : String → JSVal
  | arr : List JSVal → JSVal
  | obj : List (String × JSVal) → JSVal

instance : Inhabited JSVal := ⟨JSVal.undef⟩

namespace JSVal

/-- JavaScript truthiness (`Boolean(v)`): `undefined`, `null`, `false`,
`0` and the empty string are falsy, everything else is truthy. -/
def truthy : JSVal → Bool
  | undef => false
  | null => false
  | bool b => b
  | num n => n != 0
  | str s => s ≠ ""
  | arr _ => true
  | obj _ => true

/-- JavaScript short-circuiting `a || b`. -/
def jsOr (a b : JSVal) : JSVal :=
  if a.truthy then a else b

/-- JavaScript `typeof v === 'object'`: true exactly for `null`, arrays
and plain objects. -/
def typeofObject : JSVal → Bool
  | null => true
  | arr _ => true
  | obj _ => true
  | _ => false

/-- JavaScript `Array.isArray(v)`. -/
def isArray : JSVal → Bool
  | arr _ => true
  | _ => false

end JSVal

/-- The error a modelled JavaScript computation can throw.  `typeError`
stands for the `TypeError` raised by a property access on `null` or
`undefined`. -/
inductive JSErr where
  | typeError : JSErr
deriving Repr, DecidableEq

/-- Property lookup on an object, `undefined` when the key is absent. -/
def lookupField (fields : List (String × JSVal)) (k : String) : JSVal :=
  match fields.find? (fun p => p.fst = k) with
  | some p => p.snd
  | none => JSVal.undef

/-- JavaScript property access `v.k`: throws `TypeError` on `null` and
`undefined`, looks the key up on objects, and yields `undefined` on every
other value (primitives and arrays have none of the accessed keys). -/
def getField (v : JSVal) (k : String) : Except JSErr JSVal :=
  match v with
  | JSVal.undef => Except.error JSErr.typeError
  | JSVal.null => Except.error JSErr.typeError
  | JSVal.obj fields => Except.ok (lookupField fields k)
  | _ => Except.ok JSVal.undef

/-- The five `SubTask` types of `SlideGenerationService.ts`. -/
inductive SubTaskType where
  | title | keyPoints | visualization | summary | recommendations
deriving Repr, DecidableEq

/-- One map step of `recs.map((r) => typeof r === 'object' ? r.description || r : r)`
in the `recommendations` branch of `normalizeResponse`.  Because
`typeof null === 'object'` in JavaScript, a `null` entry reaches
`null.description` and throws. -/
def normalizeRecEntry (r : JSVal) : Except JSErr JSVal :=
  if r.typeofObject then do
    let d ← getField r "description"
    pure (d.jsOr r)
  else
    pure r

/-- `SlideGenerationService.normalizeResponse(type, response)`, translated
branch for branch from the `switch` in the source. -/
def normalizeResponse (ty : SubTaskType) (response : JSVal) : Except JSErr JSVal :=
  match ty with
  | SubTaskType.title => do
      let t ← getField response "title"
      pure (JSVal.obj [("title", t.jsOr (JSVal.str "Analysis Results"))])
  | SubTaskType.keyPoints => do
      let p ← getField response "points"
      let kp ← getField response "key_points"
      pure (JSVal.obj [("points",
        p.jsOr (kp.jsOr (JSVal.arr [JSVal.str "No key points available"])))])
  | SubTaskType.visualization => do
      let t ← getField response "type"
      let ke ← getField response "keyElements"
      pure (JSVal.obj [("type", t.jsOr (JSVal.str "Bar Chart")),
                       ("keyElements", ke.jsOr (JSVal.arr []))])
  | SubTaskType.recommendations => do
      let rv ← getField response "recommendations"
      let recs : List JSVal := match rv with
        | JSVal.arr xs => xs
        | v => [v]
      let mapped ← recs.mapM normalizeRecEntry
      pure (JSVal.obj [("recommendations", JSVal.arr mapped)])
  | SubTaskType.summary => pure response

/-! ## Claim C5: totality of `normalizeResponse` -/

theorem JSVal.truthy_ne {a : JSVal} (h : a.truthy = true) :
    a ≠ JSVal.null ∧ a ≠ JSVal.undef := by
  constructor <;> rintro rfl <;> simp [JSVal.truthy] at h

theorem JSVal.jsOr_ne (a : JSVal) {b : JSVal}
    (hb : b ≠ JSVal.null ∧ b ≠ JSVal.undef) :
    a.jsOr b ≠ JSVal.null ∧ a.jsOr b ≠ JSVal.undef := by
  unfold JSVal.jsOr
  split
  · exact JSVal.truthy_ne (by assumption)
  · exact hb

theorem normalizeRecEntry_ok {r : JSVal} (h : r ≠ JSVal.null) :
    ∃ v, normalizeRecEntry r = Except.ok v := by
  cases r <;> first
    | exact absurd rfl h
    | exact ⟨_, rfl⟩

theorem mapM_normalizeRecEntry_ok {recs : List JSVal}
    (h : JSVal.null ∉ recs) :
    ∃ vs, recs.mapM normalizeRecEntry = Except.ok vs := by
  induction recs with
  | nil => exact ⟨[], rfl⟩
  | cons r rs ih =>
    obtain ⟨v, hv⟩ := normalizeRecEntry_ok (fun hr => h (hr ▸ List.mem_cons_self r rs))
    obtain ⟨vs, hvs⟩ := ih (fun hm => h (List.mem_cons_of_mem r hm))
    exact ⟨v :: vs, by rw [List.mapM_cons, hv, hvs]; rfl⟩

/-- Claim C5, as stated, is false: `normalizeResponse` is not total.  On the
input object `{ recommendations: null }` the `recommendations` branch wraps
the value as `[null]`, and since `typeof null === 'object'` the mapper
evaluates `null.description`, throwing a `TypeError`. -/
theorem C5_counterexample :
    normalizeResponse SubTaskType.recommendations
      (JSVal.obj [("recommendations", JSVal.null)])
      = Except.error JSErr.typeError := rfl

theorem normalizeResponse_rec_single {r v : JSVal}
    (h : normalizeRecEntry r = Except.ok v) :
    Except.map (fun mapped => JSVal.obj [("recommendations", JSVal.arr mapped)])
      ([r].mapM normalizeRecEntry)
      = Except.ok (JSVal.obj [("recommendations", JSVal.arr [v])]) := by
  rw [List.mapM_cons, h, List.mapM_nil]
  rfl

/-- Claim C5 (corrected): for the `title`, `keyPoints` and `visualization`
types, `normalizeResponse` never throws on any object input and every
required field of the canonical shape is neither `null` nor `undefined`;
the type outside the four (`summary`) passes any input through unchanged;
and for `recommendations` it never throws provided neither the raw
`recommendations` value nor any entry of it (when it is an array) is
`null`. -/
theorem C5_normalizeResponse_total :
    (∀ fields : List (String × JSVal), ∃ v,
      normalizeResponse SubTaskType.title (JSVal.obj fields)
        = Except.ok (JSVal.obj [("title", v)])
      ∧ v ≠ JSVal.null ∧ v ≠ JSVal.undef)
    ∧ (∀ fields : List (String × JSVal), ∃ v,
      normalizeResponse SubTaskType.keyPoints (JSVal.obj fields)
        = Except.ok (JSVal.obj [("points", v)])
      ∧ v ≠ JSVal.null ∧ v ≠ JSVal.undef)
    ∧ (∀ fields : List (String × JSVal), ∃ v w,
      normalizeResponse SubTaskType.visualization (JSVal.obj fields)
        = Except.ok (JSVal.obj [("type", v), ("keyElements", w)])
      ∧ v ≠ JSVal.null ∧ v ≠ JSVal.undef ∧ w ≠ JSVal.null ∧ w ≠ JSVal.undef)
    ∧ (∀ fields : List (String × JSVal),
      lookupField fields "recommendations" ≠ JSVal.null →
      (∀ xs, lookupField fields "recommendations" = JSVal.arr xs →
        JSVal.null ∉ xs) →
      ∃ vs, normalizeResponse SubTaskType.recommendations (JSVal.obj fields)
        = Except.ok (JSVal.obj [("recommendations", JSVal.arr vs)]))
    ∧ (∀ v : JSVal, normalizeResponse SubTaskType.summary v = Except.ok v) := by
  refine ⟨?_, ?_, ?_, ?_, fun v => rfl⟩
  · intro fields
    refine ⟨_, rfl, JSVal.jsOr_ne _ ⟨by simp, by simp⟩⟩
  · intro fields
    refine ⟨_, rfl, JSVal.jsOr_ne _ (JSVal.jsOr_ne _ ⟨by simp, by simp⟩)⟩
  · intro fields
    obtain ⟨h1, h2⟩ := JSVal.jsOr_ne (lookupField fields "type")
      (b := JSVal.str "Bar Chart") ⟨by simp, by simp⟩
    obtain ⟨h3, h4⟩ := JSVal.jsOr_ne (lookupField fields "keyElements")
      (b := JSVal.arr []) ⟨by simp, by simp⟩
    exact ⟨_, _, rfl, h1, h2, h3, h4⟩
  · intro fields hnn harr
    have hdef : normalizeResponse SubTaskType.recommendations (JSVal.obj fields)
        = Except.map (fun mapped => JSVal.obj [("recommendations", JSVal.arr mapped)])
            ((match lookupField fields "recommendations" with
              | JSVal.arr xs => xs
              | v => [v]).mapM normalizeRecEntry) := rfl
    match hrv : lookupField fields "recommendations" with
    | JSVal.arr xs =>
      obtain ⟨vs, hvs⟩ := mapM_normalizeRecEntry_ok (harr xs hrv)
      refine ⟨vs, ?_⟩
      rw [hdef, hrv]
      show Except.map (fun mapped => JSVal.obj [("recommendations", JSVal.arr mapped)])
        (xs.mapM normalizeRecEntry) = _
      rw [hvs]
      rfl
    | JSVal.null => exact absurd hrv hnn
    | JSVal.undef =>
      obtain ⟨v, hv⟩ := normalizeRecEntry_ok (r := JSVal.undef) (by simp)
      exact ⟨[v], by rw [hdef, hrv]; exact normalizeResponse_rec_single hv⟩
    | JSVal.bool b =>
      obtain ⟨v, hv⟩ := normalizeRecEntry_ok (r := JSVal.bool b) (by simp)
      exact ⟨[v], by rw [hdef, hrv]; exact normalizeResponse_rec_single hv⟩
    | JSVal.num n =>
      obtain ⟨v, hv⟩ := normalizeRecEntry_ok (r := JSVal.num n) (by simp)
      exact ⟨[v], by rw [hdef, hrv]; exact normalizeResponse_rec_single hv⟩
    | JSVal.str s =>
      obtain ⟨v, hv⟩ := normalizeRecEntry_ok (r := JSVal.str s) (by simp)
      exact ⟨[v], by rw [hdef, hrv]; exact normalizeResponse_rec_single hv⟩
    | JSVal.obj gs =>
      obtain ⟨v, hv⟩ := normalizeRecEntry_ok (r := JSVal.obj gs) (by simp)
      exact ⟨[v], by rw [hdef, hrv]; exact normalizeResponse_rec_single hv⟩

/-- Witness for `C5_normalizeResponse_total` at a concrete input. -/
theorem C5_normalizeResponse_total_witness :
    ∃ vs, normalizeResponse SubTaskType.recommendations
      (JSVal.obj [("recommendations", JSVal.arr [JSVal.str "cut costs"])])
      = Except.ok (JSVal.obj [("recommendations", JSVal.arr vs)]) :=
  C5_normalizeResponse_total.2.2.2.1
    [("recommendations", JSVal.arr [JSVal.str "cut costs"])]
    (by simp [lookupField])
    (by intro xs hxs
        simp [lookupField] at hxs
        simp [← hxs])

/-! ## QueueService: items and the retry path -/

/-- An error thrown by a queued task, as inspected by `QueueService`
(`error.code` and `error.message`). -/
structure QError where
  code : Option String
  message : String
deriving Repr, DecidableEq

/-- The quota / rate-limit test in `QueueService.executeWithRetry`. -/
def isQuotaError (e : QError) : Bool :=
  e.code = some "insufficient_quota" || e.code = some "rate_limit_exceeded"

/-- A `QueueItem` of `QueueService.ts`.  `taskKey` identifies the task
closure; `seq` is the insertion counter standing in for arrival order
(the source stores a `timestamp` and relies on the stability of
`Array.prototype.sort`). -/
structure QueueItem where
  id : String
  taskKey : Nat
  priority : Int
  seq : Nat
  retryCount : Nat
  maxRetries : Nat
deriving Repr, DecidableEq

/-- The error rethrown by `executeWithRetry` when `item.task()` fails:
quota errors and pre-cap errors propagate unchanged, and only an error at
the retry cap is wrapped in the `Failed after N retries` message. -/
def executeWithRetryError (item : QueueItem) (e : QError) : QError :=
  if isQuotaError e then e
  else if item.retryCount < item.maxRetries then e
  else { code := none,
         message := "Failed after " ++ toString item.maxRetries ++ " retries: " ++ e.message }

/-- What `processItem` does after a failed attempt: re-queue with backoff,
or reject the task's promise. -/
inductive FailAction where
  | requeue (backoffMs : Nat) (item : QueueItem)
  | reject (e : QError)
deriving Repr, DecidableEq

/-- The `catch` branch of `QueueService.processItem`: if
`retryCount < maxRetries` the item's `retryCount` is incremented **first**
and the backoff `min(1000 * 2^retryCount, 10000)` is computed from the
**incremented** count, and the item is re-queued; otherwise the error
(as transformed by `executeWithRetry`) rejects the promise.  Note that no
branch consults the error's quota classification. -/
def processItemFailure (item : QueueItem) (e : QError) : FailAction :=
  if item.retryCount < item.maxRetries then
    FailAction.requeue (min (1000 * 2 ^ (item.retryCount + 1)) 10000)
      { item with retryCount := item.retryCount + 1 }
  else
    FailAction.reject (executeWithRetryError item e)

/-- Final outcome of repeatedly processing one queue item: the settle value
of the `enqueue` promise, the number of retries performed, and the list of
backoff delays (in ms) that were slept between attempts. -/
inductive RunResult (α : Type) where
  | resolved (v : α) (retries : Nat) (delays : List Nat)
  | rejected (e : QError) (retries : Nat) (delays : List Nat)
deriving Repr, DecidableEq

/-- Runs one queue item to settlement.  `oracle k` is the outcome of the
`(k+1)`-st invocation of `item.task()`; the recursion follows
`processItem`'s requeue loop (re-queued items are processed again when the
backoff timer fires). -/
def runItem {α : Type} (oracle : Nat → Except QError α) (item : QueueItem)
    (k : Nat) : RunResult α :=
  match oracle k with
  | Except.ok v => RunResult.resolved v item.retryCount []
  | Except.error e =>
    if _hlt : item.retryCount < item.maxRetries then
      let d := min (1000 * 2 ^ (item.retryCount + 1)) 10000
      match runItem oracle { item with retryCount := item.retryCount + 1 } (k + 1) with
      | RunResult.resolved v r ds => RunResult.resolved v r (d :: ds)
      | RunResult.rejected e2 r ds => RunResult.rejected e2 r (d :: ds)
    else
      RunResult.rejected (executeWithRetryError item e) item.retryCount []
termination_by item.maxRetries - item.retryCount
decreasing_by simp; omega

/-! ## Claim C1: quota / rate-limit errors and the retry path -/

/-- Claim C1 exposes a bug in the code: although `executeWithRetry`
rethrows quota errors with the comment that they must not be retried, the
`catch` in `processItem` re-queues **any** error while
`retryCount < maxRetries`.  At the failing input — a fresh item
(`retryCount = 0`) whose task fails with `code = 'insufficient_quota'` —
the item is re-queued after a 2000 ms backoff instead of rejecting, and a
task that always fails with the quota error is executed four times (three
retries) before its promise finally rejects. -/
theorem C1_quota_error_is_retried :
    processItemFailure ⟨"t", 0, 1, 0, 0, 3⟩ ⟨some "insufficient_quota", "quota"⟩
      = FailAction.requeue 2000 ⟨"t", 0, 1, 0, 1, 3⟩
    ∧ runItem (α := Nat)
        (fun _ => Except.error ⟨some "insufficient_quota", "quota"⟩) ⟨"t", 0, 1, 0, 0, 3⟩ 0
      = RunResult.rejected ⟨some "insufficient_quota", "quota"⟩ 3 [2000, 4000, 8000] := by
  refine ⟨rfl, ?_⟩
  simp [runItem, processItemFailure, executeWithRetryError, isQuotaError]

/-! ## Claim C8: retry backoff -/

/-- Claim C8, as stated, is false at a fresh item (`retryCount = 0`)
failing with a retryable network error: the code increments `retryCount`
before computing the backoff, so the observed delay is 2000 ms, not
`min(1000 * 2^0, 10000) = 1000` ms. -/
theorem C8_counterexample :
    processItemFailure ⟨"t", 0, 1, 0, 0, 3⟩ ⟨some "ECONNREFUSED", "net down"⟩
      = FailAction.requeue 2000 ⟨"t", 0, 1, 0, 1, 3⟩
    ∧ (2000 : Nat) ≠ min (1000 * 2 ^ (0 : Nat)) 10000 := by
  exact ⟨rfl, by decide⟩

/-- Claim C8 (corrected): when a task fails with a retryable (non-quota)
error and `retryCount < maxRetries`, the item is re-queued with
`retryCount` incremented and a delay of exactly
`min(1000 * 2^(retryCount + 1), 10000)` ms — the increment happens before
the backoff computation; and a task that fails twice with retryable errors
and then succeeds resolves successfully after exactly 2 retries (with
delays 2000 ms and 4000 ms). -/
theorem C8_retry_backoff :
    (∀ (item : QueueItem) (e : QError), isQuotaError e = false →
      item.retryCount < item.maxRetries →
      processItemFailure item e
        = FailAction.requeue (min (1000 * 2 ^ (item.retryCount + 1)) 10000)
            { item with retryCount := item.retryCount + 1 })
    ∧ (∀ (oracle : Nat → Except QError Nat) (e1 e2 : QError) (v : Nat)
        (item : QueueItem),
      isQuotaError e1 = false → isQuotaError e2 = false →
      item.retryCount = 0 → item.maxRetries = 3 →
      oracle 0 = Except.error e1 → oracle 1 = Except.error e2 →
      oracle 2 = Except.ok v →
      runItem oracle item 0 = RunResult.resolved v 2 [2000, 4000]) := by
  constructor
  · intro item e _hq hlt
    simp [processItemFailure, hlt]
  · intro oracle e1 e2 v item _hq1 _hq2 h0 h3 ho0 ho1 ho2
    simp [runItem, h0, h3, ho0, ho1, ho2]

/-- Witness for `C8_retry_backoff` at a concrete oracle and item. -/
theorem C8_retry_backoff_witness :
    runItem (fun k => if k = 0 then Except.error ⟨some "ECONNREFUSED", "a"⟩
        else if k = 1 then Except.error ⟨none, "b"⟩ else Except.ok 7)
      ⟨"t", 0, 1, 0, 0, 3⟩ 0
      = RunResult.resolved 7 2 [2000, 4000] :=
  C8_retry_backoff.2
    (fun k => if k = 0 then Except.error ⟨some "ECONNREFUSED", "a"⟩
        else if k = 1 then Except.error ⟨none, "b"⟩ else Except.ok 7)
    ⟨some "ECONNREFUSED", "a"⟩ ⟨none, "b"⟩ 7 ⟨"t", 0, 1, 0, 0, 3⟩
    (by decide) (by decide) rfl rfl rfl rfl rfl

/-! ## QueueService: the queue state machine -/

/-- `maxConcurrent` of `QueueService`. -/
def maxConcurrent : Nat := 3

/-- Stable insertion of `x` in front of the later-arriving part of an
already sorted (priority-descending) list: `x` goes before the first
element whose priority is not greater than its own. -/
def insertDesc (x : QueueItem) : List QueueItem → List QueueItem
  | [] => [x]
  | y :: ys => if x.priority < y.priority then y :: insertDesc x ys else x :: y :: ys

/-- Stable sort by descending priority: the model of
`queue.sort((a, b) => b.priority - a.priority)` (ECMA-262 requires
`Array.prototype.sort` to be stable). -/
def sortDesc : List QueueItem → List QueueItem
  | [] => []
  | x :: xs => insertDesc x (sortDesc xs)

/-- The queue state: pending items, items whose `processItem` is in flight
(`activeRequests` is its length), items waiting on a retry backoff timer,
and the insertion counter. -/
structure QSState where
  queue : List QueueItem
  inFlight : List QueueItem
  timers : List QueueItem
  nextSeq : Nat
deriving Repr, DecidableEq

/-- The state change of `enqueue` on a cache miss: push a fresh item
(`retryCount = 0`, `maxRetries = 3`) and re-sort the queue by descending
priority. -/
def enqueueState (s : QSState) (id : String) (tk : Nat) (p : Int) : QSState :=
  { queue := sortDesc (s.queue ++ [⟨id, tk, p, s.nextSeq, 0, 3⟩]),
    inFlight := s.inFlight, timers := s.timers, nextSeq := s.nextSeq + 1 }

/-- One atomic step of `QueueService`:
* `enqueue` — a cache-missing `enqueue` call (push + sort);
* `dispatch` — one iteration of the `processQueue` loop: requires
  `activeRequests < maxConcurrent`, shifts the queue head and starts it;
* `completeOk` — an in-flight task succeeds (promise resolved);
* `failRequeue` — an in-flight task fails below the retry cap:
  `retryCount` is incremented and the item goes to a backoff timer;
* `failReject` — an in-flight task fails at the cap (promise rejected);
* `timerFire` — a backoff timer fires: the retried item is **pushed to the
  back of the queue without re-sorting** (`this.queue.push(item)`). -/
inductive QStep : QSState → QSState → Prop where
  | enqueue (s : QSState) (id : String) (tk : Nat) (p : Int) :
      QStep s (enqueueState s id tk p)
  | dispatch (s : QSState) (it : QueueItem) (rest : List QueueItem)
      (hq : s.queue = it :: rest) (hc : s.inFlight.length < maxConcurrent) :
      QStep s { queue := rest, inFlight := s.inFlight ++ [it],
                timers := s.timers, nextSeq := s.nextSeq }
  | completeOk (s : QSState) (it : QueueItem) (hm : it ∈ s.inFlight) :
      QStep s { s with inFlight := s.inFlight.erase it }
  | failRequeue (s : QSState) (it : QueueItem) (hm : it ∈ s.inFlight)
      (hr : it.retryCount < it.maxRetries) :
      QStep s { queue := s.queue, inFlight := s.inFlight.erase it,
                timers := s.timers ++ [{ it with retryCount := it.retryCount + 1 }],
                nextSeq := s.nextSeq }
  | failReject (s : QSState) (it : QueueItem) (hm : it ∈ s.inFlight)
      (hr : ¬ it.retryCount < it.maxRetries) :
      QStep s { s with inFlight := s.inFlight.erase it }
  | timerFire (s : QSState) (it : QueueItem) (hm : it ∈ s.timers) :
      QStep s { queue := s.queue ++ [it], inFlight := s.inFlight,
                timers := s.timers.erase it, nextSeq := s.nextSeq }

/-- States reachable from the initial (empty) queue service. -/
inductive Reachable : QSState → Prop where
  | init : Reachable ⟨[], [], [], 0⟩
  | step {s t : QSState} : Reachable s → QStep s t → Reachable t

/-- The next item to be dispatched has maximal priority among the pending
items. -/
def headMaximal (s : QSState) : Prop :=
  ∀ x ∈ s.queue.head?.toList, ∀ y ∈ s.queue, y.priority ≤ x.priority

/-! ## Claim C4: bounded concurrency -/

/-- Claim C4: in every reachable state the number of started-but-unfinished
tasks (`activeRequests`, the length of `inFlight`) is at most
`maxConcurrent = 3`: the dispatch loop of `processQueue` only starts an
item under the guard `activeRequests < maxConcurrent`, and every
completion path decrements the counter. -/
theorem C4_activeRequests_le_maxConcurrent :
    ∀ s : QSState, Reachable s → s.inFlight.length ≤ maxConcurrent := by
  intro s hs
  induction hs with
  | init => simp
  | step _ hst ih =>
    cases hst with
    | enqueue id tk p => simpa [enqueueState] using ih
    | dispatch it rest hq hc =>
      simp only [List.length_append, List.length_cons, List.length_nil]
      omega
    | completeOk it hm =>
      have := List.length_erase_of_mem hm
      simp only []
      omega
    | failRequeue it hm hr =>
      have := List.length_erase_of_mem hm
      simp only []
      omega
    | failReject it hm hr =>
      have := List.length_erase_of_mem hm
      simp only []
      omega
    | timerFire it hm => simpa using ih

/-- Witness for `C4_activeRequests_le_maxConcurrent` at the initial
state. -/
theorem C4_activeRequests_le_maxConcurrent_witness :
    (⟨[], [], [], 0⟩ : QSState).inFlight.length ≤ maxConcurrent :=
  C4_activeRequests_le_maxConcurrent ⟨[], [], [], 0⟩ Reachable.init

/-! ## Claim C3: dispatch priority ordering -/

/-- Claim C3, as stated, is false: the retry path re-inserts items with
`queue.push(item)` and never re-sorts, so the head of the queue need not
have maximal priority in a reachable state.  The trace: enqueue a
priority-5 task, dispatch it, fail it once (re-queued by the retry path),
enqueue a priority-1 task, and let the backoff timer fire.  The queue is
then `[priority 1, priority 5]`: the next dispatch starts the priority-1
item even though a priority-5 item is pending. -/
theorem C3_counterexample :
    Reachable ⟨[⟨"b", 1, 1, 1, 0, 3⟩, ⟨"a", 0, 5, 0, 1, 3⟩], [], [], 2⟩
    ∧ ¬ headMaximal ⟨[⟨"b", 1, 1, 1, 0, 3⟩, ⟨"a", 0, 5, 0, 1, 3⟩], [], [], 2⟩ := by
  constructor
  · have h1 : Reachable ⟨[⟨"a", 0, 5, 0, 0, 3⟩], [], [], 1⟩ :=
      Reachable.step Reachable.init (QStep.enqueue ⟨[], [], [], 0⟩ "a" 0 5)
    have h2 : Reachable ⟨[], [⟨"a", 0, 5, 0, 0, 3⟩], [], 1⟩ :=
      Reachable.step h1
        (QStep.dispatch ⟨[⟨"a", 0, 5, 0, 0, 3⟩], [], [], 1⟩ ⟨"a", 0, 5, 0, 0, 3⟩ []
          rfl (by simp [maxConcurrent]))
    have h3 : Reachable ⟨[], [], [⟨"a", 0, 5, 0, 1, 3⟩], 1⟩ :=
      Reachable.step h2
        (QStep.failRequeue ⟨[], [⟨"a", 0, 5, 0, 0, 3⟩], [], 1⟩ ⟨"a", 0, 5, 0, 0, 3⟩
          (by simp) (by simp))
    have h4 : Reachable ⟨[⟨"b", 1, 1, 1, 0, 3⟩], [], [⟨"a", 0, 5, 0, 1, 3⟩], 2⟩ :=
      Reachable.step h3 (QStep.enqueue ⟨[], [], [⟨"a", 0, 5, 0, 1, 3⟩], 1⟩ "b" 1 1)
    exact Reachable.step h4
      (QStep.timerFire ⟨[⟨"b", 1, 1, 1, 0, 3⟩], [], [⟨"a", 0, 5, 0, 1, 3⟩], 2⟩
        ⟨"a", 0, 5, 0, 1, 3⟩ (by simp))
  · unfold headMaximal
    decide

/-- `x` may be dispatched before `y`: strictly greater priority, or equal
priority and not-later insertion. -/
def lexLe (x y : QueueItem) : Prop :=
  y.priority < x.priority ∨ (x.priority = y.priority ∧ x.seq ≤ y.seq)

/-- Among equal priorities, `x` was inserted no later than `y`. -/
def tieSeqLe (x y : QueueItem) : Prop :=
  x.priority = y.priority → x.seq ≤ y.seq

theorem mem_insertDesc {z x : QueueItem} {l : List QueueItem} :
    z ∈ insertDesc x l ↔ z = x ∨ z ∈ l := by
  induction l with
  | nil => simp [insertDesc]
  | cons y ys ih =>
    unfold insertDesc
    split <;> (simp [ih]; try tauto)

theorem mem_sortDesc {z : QueueItem} {l : List QueueItem} :
    z ∈ sortDesc l ↔ z ∈ l := by
  induction l with
  | nil => simp [sortDesc]
  | cons y ys ih => simp [sortDesc, mem_insertDesc, ih]

theorem insertDesc_pairwise {x : QueueItem} {l : List QueueItem}
    (hl : l.Pairwise lexLe) (hx : ∀ y ∈ l, tieSeqLe x y) :
    (insertDesc x l).Pairwise lexLe := by
  induction l with
  | nil => simp [insertDesc, List.pairwise_cons]
  | cons y ys ih =>
    rw [List.pairwise_cons] at hl
    obtain ⟨hy, hys⟩ := hl
    unfold insertDesc
    split
    · rename_i hpr
      rw [List.pairwise_cons]
      refine ⟨?_, ih hys (fun z hz => hx z (List.mem_cons_of_mem y hz))⟩
      intro z hz
      rcases mem_insertDesc.mp hz with rfl | hz2
      · exact Or.inl hpr
      · exact hy z hz2
    · rename_i hpr
      push_neg at hpr
      rw [List.pairwise_cons]
      constructor
      · intro z hz
        rcases List.mem_cons.mp hz with rfl | hz2
        · rcases lt_or_eq_of_le hpr with hlt | heq
          · exact Or.inl hlt
          · exact Or.inr ⟨heq.symm, hx z (List.mem_cons_self z ys) heq.symm⟩
        · rcases hy z hz2 with hlt | ⟨heq, _⟩
          · rcases lt_or_eq_of_le hpr with hlt2 | heq2
            · exact Or.inl (hlt.trans hlt2)
            · exact Or.inl (heq2 ▸ hlt)
          · rcases lt_or_eq_of_le hpr with hlt2 | heq2
            · exact Or.inl (heq ▸ hlt2)
            · refine Or.inr ⟨(heq2.symm.trans heq).symm.symm, ?_⟩
              exact hx z (List.mem_cons_of_mem y hz2) (heq2.symm.trans heq).symm.symm
      · exact List.pairwise_cons.mpr ⟨hy, hys⟩

theorem sortDesc_pairwise {l : List QueueItem}
    (h : l.Pairwise tieSeqLe) : (sortDesc l).Pairwise lexLe := by
  induction l with
  | nil => simp [sortDesc]
  | cons x xs ih =>
    rw [List.pairwise_cons] at h
    exact insertDesc_pairwise (ih h.2)
      (fun y hy => h.1 y (mem_sortDesc.mp hy))

/-- States reachable without a retry re-insertion (`timerFire`): every
queue mutation is an `enqueue` (push + stable sort) or a dispatch shift;
failures may still occur and arm timers, but no timer has fired yet. -/
inductive ReachableND : QSState → Prop where
  | init : ReachableND ⟨[], [], [], 0⟩
  | enqueue {s : QSState} (id : String) (tk : Nat) (p : Int) :
      ReachableND s → ReachableND (enqueueState s id tk p)
  | dispatch {s : QSState} {it : QueueItem} {rest : List QueueItem}
      (hq : s.queue = it :: rest) (hc : s.inFlight.length < maxConcurrent) :
      ReachableND s →
      ReachableND { queue := rest, inFlight := s.inFlight ++ [it],
                    timers := s.timers, nextSeq := s.nextSeq }
  | completeOk {s : QSState} {it : QueueItem} (hm : it ∈ s.inFlight) :
      ReachableND s → ReachableND { s with inFlight := s.inFlight.erase it }
  | failRequeue {s : QSState} {it : QueueItem} (hm : it ∈ s.inFlight)
      (hr : it.retryCount < it.maxRetries) :
      ReachableND s →
      ReachableND { queue := s.queue, inFlight := s.inFlight.erase it,
                    timers := s.timers ++ [{ it with retryCount := it.retryCount + 1 }],
                    nextSeq := s.nextSeq }
  | failReject {s : QSState} {it : QueueItem} (hm : it ∈ s.inFlight)
      (hr : ¬ it.retryCount < it.maxRetries) :
      ReachableND s → ReachableND { s with inFlight := s.inFlight.erase it }

theorem reachableND_invariant {s : QSState} (hs : ReachableND s) :
    s.queue.Pairwise lexLe ∧ ∀ it ∈ s.queue, it.seq < s.nextSeq := by
  induction hs with
  | init => simp
  | enqueue id tk p _ ih =>
    obtain ⟨hord, hseq⟩ := ih
    rename_i s _
    constructor
    · apply sortDesc_pairwise
      rw [List.pairwise_append]
      refine ⟨?_, by simp, ?_⟩
      · exact hord.imp (fun {a b} hab => by
          intro hpq
          rcases hab with hlt | ⟨_, hle⟩
          · exact absurd hpq (by omega)
          · exact hle)
      · intro a ha b hb
        simp at hb
        subst hb
        intro _
        exact le_of_lt (hseq a ha)
    · intro it hit
      rcases (List.mem_append.mp (mem_sortDesc.mp hit)) with h | h
      · exact Nat.lt_succ_of_lt (hseq it h)
      · simp at h
        subst h
        exact Nat.lt_succ_self _
  | dispatch hq hc _ ih =>
    obtain ⟨hord, hseq⟩ := ih
    rw [hq] at hord hseq
    exact ⟨hord.of_cons, fun it hit => hseq it (List.mem_cons_of_mem _ hit)⟩
  | completeOk hm _ ih => exact ih
  | failRequeue hm hr _ ih => exact ih
  | failReject hm hr _ ih => exact ih

/-- Claim C3 (corrected): at every dispatch step from a state reached
without a retry re-insertion, the item the queue starts has maximal
priority among the then-pending items, and items of equal priority are
ordered by insertion (`seq`); in particular items enqueued with priorities
[1,3,2] in that order are dispatched in order [3,2,1].  (In states where
the retry path has re-queued an item the guarantee fails, because
`setTimeout`'s callback pushes the item to the back without re-sorting —
see the counterexample.) -/
theorem C3_priority_ordering :
    (∀ s : QSState, ReachableND s → s.queue.Pairwise lexLe ∧ headMaximal s)
    ∧ ((enqueueState (enqueueState (enqueueState ⟨[], [], [], 0⟩ "a" 0 1)
          "b" 1 3) "c" 2 2).queue.map (fun it => it.priority)) = [3, 2, 1] := by
  constructor
  · intro s hs
    have h := reachableND_invariant hs
    refine ⟨h.1, ?_⟩
    unfold headMaximal
    intro x hx y hy
    cases hq : s.queue with
    | nil =>
      rw [hq] at hx
      simp at hx
    | cons a rest =>
      rw [hq] at hx hy
      simp at hx
      subst hx
      rcases List.mem_cons.mp hy with rfl | hy2
      · exact le_refl _
      · have hpw := hq ▸ h.1
        rcases (List.pairwise_cons.mp hpw).1 y hy2 with hlt | ⟨heq, _⟩
        · exact le_of_lt hlt
        · exact le_of_eq heq.symm
  · decide

/-- Witness for `C3_priority_ordering` at a concrete reachable state. -/
theorem C3_priority_ordering_witness :
    (enqueueState (enqueueState ⟨[], [], [], 0⟩ "a" 0 1) "b" 1 3).queue.Pairwise lexLe
    ∧ headMaximal (enqueueState (enqueueState ⟨[], [], [], 0⟩ "a" 0 1) "b" 1 3) :=
  C3_priority_ordering.1 _
    (ReachableND.enqueue "b" 1 3 (ReachableND.enqueue "a" 0 1 ReachableND.init))

/-! ## QueueService: cache and promise waiters -/

/-- `cacheTTL` of `QueueService`: `1000 * 60 * 5` ms. -/
def cacheTTL : Nat := 1000 * 60 * 5

/-- A promise returned by `enqueue`, waiting on the `complete:id` /
`error:id` events.  `hasComplete` / `hasError` record whether the two
`once` listeners are still attached; `settled` is the promise's settled
value (the first `resolve`/`reject` wins, later calls are no-ops). -/
structure Waiter (α : Type) where
  id : String
  settled : Option (Except QError α)
  hasComplete : Bool
  hasError : Bool

/-- The service state seen by `enqueue`: the result cache
(`id ↦ (data, timestamp)`), the pending queue, the registered promise
waiters, and the insertion counter. -/
structure SvcState (α : Type) where
  cache : List (String × α × Nat)
  queue : List QueueItem
  waiters : List (Waiter α)
  nextSeq : Nat

/-- `this.cache.get(id)`. -/
def cacheLookup {α : Type} (cache : List (String × α × Nat)) (id : String) :
    Option (α × Nat) :=
  match cache.find? (fun e => e.fst = id) with
  | some e => some e.snd
  | none => none

/-- `this.cache.set(id, { data, timestamp })`. -/
def cacheSet {α : Type} (cache : List (String × α × Nat)) (id : String)
    (v : α) (ts : Nat) : List (String × α × Nat) :=
  (id, v, ts) :: cache.filter (fun e => e.fst ≠ id)

/-- `QueueService.enqueue(id, task, priority)` at time `now`: a valid
(age < TTL) cache entry is returned immediately and nothing else happens;
otherwise a fresh item carrying this call's task (`tk`) is pushed and the
queue re-sorted, and a promise waiter for `id` is registered.  The first
component is `some data` exactly when the call returned from cache. -/
def enqueueCall {α : Type} (st : SvcState α) (id : String) (tk : Nat)
    (p : Int) (now : Nat) : Option α × SvcState α :=
  let miss : Option α × SvcState α :=
    (none,
     { cache := st.cache,
       queue := sortDesc (st.queue ++ [⟨id, tk, p, st.nextSeq, 0, 3⟩]),
       waiters := st.waiters ++ [⟨id, none, true, true⟩],
       nextSeq := st.nextSeq + 1 })
  match cacheLookup st.cache id with
  | some (data, ts) => if now - ts < cacheTTL then (some data, st) else miss
  | none => miss

/-- The `complete:id` once-listener firing on one waiter. -/
def fireComplete {α : Type} (w : Waiter α) (id : String) (v : α) : Waiter α :=
  if w.id = id ∧ w.hasComplete then
    { w with hasComplete := false,
             settled := match w.settled with
               | some x => some x
               | none => some (Except.ok v) }
  else w

/-- The `error:id` once-listener firing on one waiter. -/
def fireError {α : Type} (w : Waiter α) (id : String) (e : QError) : Waiter α :=
  if w.id = id ∧ w.hasError then
    { w with hasError := false,
             settled := match w.settled with
               | some x => some x
               | none => some (Except.error e) }
  else w

/-- One emission on the queue's `EventEmitter` for `id`: `processItem`
emits `complete:id` with the result on success and `error:id` with the
error on terminal failure. -/
def fireOutcome {α : Type} (w : Waiter α) (id : String)
    (o : Except QError α) : Waiter α :=
  match o with
  | Except.ok v => fireComplete w id v
  | Except.error e => fireError w id e

/-- Emission delivered to every registered waiter. -/
def emitOutcome {α : Type} (ws : List (Waiter α)) (id : String)
    (o : Except QError α) : List (Waiter α) :=
  ws.map (fun w => fireOutcome w id o)

/-- The success path of `processItem` for the task of `id`: cache the
result (timestamped `now`) and emit `complete:id`. -/
def completeSuccess {α : Type} (st : SvcState α) (id : String) (v : α)
    (now : Nat) : SvcState α :=
  { st with cache := cacheSet st.cache id v now,
            waiters := emitOutcome st.waiters id (Except.ok v) }

theorem cacheLookup_cacheSet {α : Type} (cache : List (String × α × Nat))
    (id : String) (v : α) (ts : Nat) :
    cacheLookup (cacheSet cache id v ts) id = some (v, ts) := by
  simp [cacheLookup, cacheSet]

/-! ## Claim C2: cache idempotence of `enqueue` -/

/-- Claim C2: an `enqueue(id, task, p)` call finding a cache entry for
`id` younger than the 5-minute TTL returns the cached value and leaves the
whole service state unchanged — in particular no queue item is created, so
`task` is never invoked; consequently, after a successful completion for
`id` at time `t0`, any sequence of further `enqueue` calls for `id` at
times within the TTL window leaves the state fixed and every such call
answers from the cache (zero additional task executions). -/
theorem C2_cache_idempotent :
    (∀ (α : Type) (st : SvcState α) (id : String) (tk : Nat) (p : Int)
       (now : Nat) (data : α) (ts : Nat),
      cacheLookup st.cache id = some (data, ts) → now - ts < cacheTTL →
      enqueueCall st id tk p now = (some data, st))
    ∧ (∀ (α : Type) (st : SvcState α) (id : String) (v : α) (t0 : Nat)
       (calls : List (Nat × Int × Nat)),
      (∀ c ∈ calls, c.2.2 - t0 < cacheTTL) →
      List.foldl (fun s c => (enqueueCall s id c.1 c.2.1 c.2.2).2)
          (completeSuccess st id v t0) calls = completeSuccess st id v t0
      ∧ ∀ c ∈ calls,
          enqueueCall (completeSuccess st id v t0) id c.1 c.2.1 c.2.2
            = (some v, completeSuccess st id v t0)) := by
  have hit : ∀ (α : Type) (st : SvcState α) (id : String) (tk : Nat) (p : Int)
      (now : Nat) (data : α) (ts : Nat),
      cacheLookup st.cache id = some (data, ts) → now - ts < cacheTTL →
      enqueueCall st id tk p now = (some data, st) := by
    intro α st id tk p now data ts h1 h2
    simp [enqueueCall, h1, h2]
  refine ⟨hit, ?_⟩
  intro α st id v t0 calls hcalls
  have hcs : ∀ tk p now, now - t0 < cacheTTL →
      enqueueCall (completeSuccess st id v t0) id tk p now
        = (some v, completeSuccess st id v t0) := by
    intro tk p now hnow
    exact hit α _ id tk p now v t0
      (by simp [completeSuccess, cacheLookup_cacheSet]) hnow
  constructor
  · induction calls with
    | nil => rfl
    | cons c cs ih =>
      have h1 := hcs c.1 c.2.1 c.2.2 (hcalls c (List.mem_cons_self c cs))
      simp only [List.foldl_cons, h1]
      exact ih (fun d hd => hcalls d (List.mem_cons_of_mem c hd))
  · intro c hc
    exact hcs c.1 c.2.1 c.2.2 (hcalls c hc)

/-- Witness for `C2_cache_idempotent` at a concrete state and call. -/
theorem C2_cache_idempotent_witness :
    enqueueCall (completeSuccess (⟨[], [], [], 0⟩ : SvcState Nat) "x" 42 100)
        "x" 0 1 200
      = (some 42, completeSuccess (⟨[], [], [], 0⟩ : SvcState Nat) "x" 42 100) :=
  (C2_cache_idempotent.2 Nat ⟨[], [], [], 0⟩ "x" 42 100 [(0, 1, 200)]
    (by intro c hc; simp at hc; subst hc; simp [cacheTTL])).2
    (0, 1, 200) (by simp)

/-! ## Claim C10: concurrent enqueues with the same id -/

theorem fireOutcome_id {α : Type} (w : Waiter α) (id : String)
    (o : Except QError α) : (fireOutcome w id o).id = w.id := by
  cases o <;> (simp only [fireOutcome, fireComplete, fireError]; split <;> rfl)

theorem fireOutcome_twice_settles {α : Type} {w : Waiter α} {id : String}
    (o1 o2 : Except QError α) (hid : w.id = id) (hs : w.settled = none)
    (hc : w.hasComplete = true) (he : w.hasError = true) :
    (fireOutcome (fireOutcome w id o1) id o2).settled = some o1 := by
  cases o1 <;> cases o2 <;>
    simp [fireOutcome, fireComplete, fireError, hid, hs, hc, he]

/-- Claim C10: when two `enqueue` calls for the same `id` both miss the
cache, each queues its own task (two distinct queue items carrying the two
task closures) and registers its own fresh waiter; and once both waiters
for `id` are registered, the first emission for `id` (the outcome of
whichever execution finishes first, success or terminal failure) settles
every waiter for `id` with that outcome, and a later second emission
cannot change it. -/
theorem C10_concurrent_same_id :
    (∀ (α : Type) (st : SvcState α) (id : String) (tk1 tk2 : Nat)
       (p1 p2 : Int) (n1 n2 : Nat),
      cacheLookup st.cache id = none →
      (enqueueCall st id tk1 p1 n1).1 = none
      ∧ (enqueueCall (enqueueCall st id tk1 p1 n1).2 id tk2 p2 n2).1 = none
      ∧ (∃ it ∈ (enqueueCall (enqueueCall st id tk1 p1 n1).2 id tk2 p2 n2).2.queue,
          it.id = id ∧ it.taskKey = tk1)
      ∧ (∃ it ∈ (enqueueCall (enqueueCall st id tk1 p1 n1).2 id tk2 p2 n2).2.queue,
          it.id = id ∧ it.taskKey = tk2)
      ∧ (enqueueCall (enqueueCall st id tk1 p1 n1).2 id tk2 p2 n2).2.waiters
          = st.waiters ++ [⟨id, none, true, true⟩, ⟨id, none, true, true⟩])
    ∧ (∀ (α : Type) (ws : List (Waiter α)) (id : String)
       (o1 o2 : Except QError α),
      (∀ w ∈ ws, w.id = id →
        w.settled = none ∧ w.hasComplete = true ∧ w.hasError = true) →
      ∀ w ∈ emitOutcome (emitOutcome ws id o1) id o2, w.id = id →
        w.settled = some o1) := by
  constructor
  · intro α st id tk1 tk2 p1 p2 n1 n2 hmiss
    have h1 : enqueueCall st id tk1 p1 n1 =
        (none, ⟨st.cache, sortDesc (st.queue ++ [⟨id, tk1, p1, st.nextSeq, 0, 3⟩]),
          st.waiters ++ [⟨id, none, true, true⟩], st.nextSeq + 1⟩) := by
      simp [enqueueCall, hmiss]
    have h2 : enqueueCall (enqueueCall st id tk1 p1 n1).2 id tk2 p2 n2 =
        (none, ⟨st.cache,
          sortDesc (sortDesc (st.queue ++ [⟨id, tk1, p1, st.nextSeq, 0, 3⟩])
            ++ [⟨id, tk2, p2, st.nextSeq + 1, 0, 3⟩]),
          (st.waiters ++ [⟨id, none, true, true⟩]) ++ [⟨id, none, true, true⟩],
          st.nextSeq + 2⟩) := by
      rw [h1]
      simp [enqueueCall, hmiss]
    refine ⟨by rw [h1], by rw [h2], ?_, ?_, by rw [h2]; simp⟩
    · refine ⟨⟨id, tk1, p1, st.nextSeq, 0, 3⟩, ?_, rfl, rfl⟩
      rw [h2]
      simp [mem_sortDesc]
    · refine ⟨⟨id, tk2, p2, st.nextSeq + 1, 0, 3⟩, ?_, rfl, rfl⟩
      rw [h2]
      simp [mem_sortDesc]
  · intro α ws id o1 o2 hfresh w hw hwid
    simp only [emitOutcome, List.map_map, List.mem_map] at hw
    obtain ⟨w0, hw0, rfl⟩ := hw
    have hid0 : w0.id = id := by
      have h1 := fireOutcome_id (fireOutcome w0 id o1) id o2
      have h2 := fireOutcome_id w0 id o1
      simp only [Function.comp] at hwid
      rw [← h2, ← h1]
      exact hwid
    obtain ⟨hs, hc, he⟩ := hfresh w0 hw0 hid0
    exact fireOutcome_twice_settles o1 o2 hid0 hs hc he

/-- Witness for `C10_concurrent_same_id` at two concrete waiters and
emissions. -/
theorem C10_concurrent_same_id_witness :
    ∀ w ∈ emitOutcome (emitOutcome
        [(⟨"x", none, true, true⟩ : Waiter Nat), ⟨"x", none, true, true⟩]
        "x" (Except.ok 1)) "x" (Except.error ⟨none, "boom"⟩),
      w.id = "x" → w.settled = some (Except.ok 1) :=
  C10_concurrent_same_id.2 Nat
    [⟨"x", none, true, true⟩, ⟨"x", none, true, true⟩] "x"
    (Except.ok 1) (Except.error ⟨none, "boom"⟩)
    (by intro w hw _; simp at hw; rcases hw with rfl | rfl; repeat simp)

/-! ## Claim C7: `Promise.all` over the four sub-tasks -/

/-- `Promise.all` over settled outcomes: the list of values when all
fulfil, otherwise the first rejection. -/
def promiseAll {β : Type} : List (Except QError β) → Except QError (List β)
  | [] => Except.ok []
  | r :: rs =>
    match r with
    | Except.error e => Except.error e
    | Except.ok v =>
      match promiseAll rs with
      | Except.error e => Except.error e
      | Except.ok vs => Except.ok (v :: vs)

/-- `generateSlide` after `createSubTasks`: it awaits the four enqueued
sub-task promises with `Promise.all` and only then runs the rest of the
function (parsing, normalisation, slide assembly — abstracted as `k`); a
rejection of the `await` propagates out of `generateSlide` (the `catch`
logs and rethrows). -/
def generateSlideResult {β γ : Type} (k : List β → γ)
    (r1 r2 r3 r4 : Except QError β) : Except QError γ :=
  match promiseAll [r1, r2, r3, r4] with
  | Except.error e => Except.error e
  | Except.ok vs => Except.ok (k vs)

/-- Claim C7: if at least one of the four sub-task promises is ultimately
rejected, `generateSlide` rejects the whole request — whatever the other
three did and whatever the rest of the pipeline would compute; in
particular it rejects when all four fail. -/
theorem C7_subtask_failure_rejects :
    (∀ (β γ : Type) (k : List β → γ) (r1 r2 r3 r4 : Except QError β),
      (∃ e, r1 = Except.error e ∨ r2 = Except.error e ∨ r3 = Except.error e
        ∨ r4 = Except.error e) →
      ∃ e, generateSlideResult k r1 r2 r3 r4 = Except.error e)
    ∧ (∀ (β γ : Type) (k : List β → γ) (e1 e2 e3 e4 : QError),
      generateSlideResult k (Except.error e1) (Except.error e2)
        (Except.error e3) (Except.error e4) = Except.error e1) := by
  constructor
  · intro β γ k r1 r2 r3 r4 ⟨e, he⟩
    cases r1 with
    | error e1 => exact ⟨e1, rfl⟩
    | ok v1 =>
      cases r2 with
      | error e2 => exact ⟨e2, rfl⟩
      | ok v2 =>
        cases r3 with
        | error e3 => exact ⟨e3, rfl⟩
        | ok v3 =>
          cases r4 with
          | error e4 => exact ⟨e4, rfl⟩
          | ok v4 => simp at he
  · intro β γ k e1 e2 e3 e4
    rfl

/-- Witness for `C7_subtask_failure_rejects`: one rejected sub-task among
three fulfilled ones rejects the whole request. -/
theorem C7_subtask_failure_rejects_witness :
    ∃ e, generateSlideResult (fun vs => vs.length)
      (Except.ok 10) (Except.ok 20) (Except.error ⟨none, "boom"⟩)
      (Except.ok 30) = Except.error e :=
  C7_subtask_failure_rejects.1 Nat Nat (fun vs => vs.length)
    (Except.ok 10) (Except.ok 20) (Except.error ⟨none, "boom"⟩) (Except.ok 30)
    ⟨⟨none, "boom"⟩, Or.inr (Or.inr (Or.inl rfl))⟩

/-! ## Claim C9: request validation in the POST route -/

/-- `new TextEncoder().encode(s).length`: the UTF-8 byte length of a
string. -/
def encodedByteLength (s : String) : Nat := (s.data.map Char.utf8Size).sum

/-- The request body relevant to validation.  `rawData = none` models an
absent (or `undefined`/`null`) field; the `!rawData` guard also fires on
the empty string. -/
structure ReqData where
  rawData : Option String

/-- Outcome of the POST handler up to the point where the slide service is
invoked: either an error response with an HTTP status, or the call into
`slideService.generateSlide` — the only path that issues backend model
calls. -/
inductive RouteResult where
  | reject (status : Nat)
  | callBackend (rawData : String)
deriving Repr, DecidableEq

/-- The validation pipeline of `POST` in
`src/app/api/generate-slides/route.ts`: unparseable body → 400; missing
API key → 503 (`validateEnv` throws); falsy `rawData` → 400; encoded size
above the 100000-byte limit → 413; otherwise `generateSlide` is called. -/
def postValidation (envKey : Option String) (reqBody : Option ReqData) :
    RouteResult :=
  match reqBody with
  | none => RouteResult.reject 400
  | some rd =>
    match envKey with
    | none => RouteResult.reject 503
    | some _ =>
      match rd.rawData with
      | none => RouteResult.reject 400
      | some s =>
        if s = "" then RouteResult.reject 400
        else if 100000 < encodedByteLength s then RouteResult.reject 413
        else RouteResult.callBackend s

/-- Claim C9: with the API key configured, a parsed body without `rawData`
is rejected with status 400, and one whose `rawData` encodes to more than
100000 bytes is rejected with status 413; in both cases the result is not
the `callBackend` branch, so no backend model call is issued. -/
theorem C9_validation_before_backend :
    (∀ (key : String) (rd : ReqData), rd.rawData = none →
      postValidation (some key) (some rd) = RouteResult.reject 400)
    ∧ (∀ (key : String) (rd : ReqData) (s : String), rd.rawData = some s →
      100000 < encodedByteLength s →
      postValidation (some key) (some rd) = RouteResult.reject 413)
    ∧ (∀ (key : String) (rd : ReqData),
      (rd.rawData = none
        ∨ ∃ s, rd.rawData = some s ∧ 100000 < encodedByteLength s) →
      ∀ t, postValidation (some key) (some rd) ≠ RouteResult.callBackend t) := by
  have h400 : ∀ (key : String) (rd : ReqData), rd.rawData = none →
      postValidation (some key) (some rd) = RouteResult.reject 400 := by
    intro key rd h
    simp [postValidation, h]
  have h413 : ∀ (key : String) (rd : ReqData) (s : String), rd.rawData = some s →
      100000 < encodedByteLength s →
      postValidation (some key) (some rd) = RouteResult.reject 413 := by
    intro key rd s hs hsize
    have hne : s ≠ "" := by
      rintro rfl
      simp [encodedByteLength] at hsize
    simp [postValidation, hs, hne, hsize]
  refine ⟨h400, h413, ?_⟩
  intro key rd h t
  rcases h with h | ⟨s, hs, hsize⟩
  · rw [h400 key rd h]
    intro hc
    exact RouteResult.noConfusion hc
  · rw [h413 key rd s hs hsize]
    intro hc
    exact RouteResult.noConfusion hc

theorem encodedByteLength_replicate_a (n : Nat) :
    encodedByteLength (String.mk (List.replicate n 'a')) = n := by
  have h1 : 'a'.utf8Size = 1 := rfl
  simp [encodedByteLength, List.map_replicate, List.sum_replicate, h1]

/-- Witness for `C9_validation_before_backend`: a missing `rawData` gives
400, and a 150000-byte `rawData` gives 413. -/
theorem C9_validation_before_backend_witness :
    postValidation (some "sk-test") (some ⟨none⟩) = RouteResult.reject 400
    ∧ postValidation (some "sk-test")
        (some ⟨some (String.mk (List.replicate 150000 'a'))⟩)
      = RouteResult.reject 413 :=
  ⟨C9_validation_before_backend.1 "sk-test" ⟨none⟩ rfl,
   C9_validation_before_backend.2.1 "sk-test"
     ⟨some (String.mk (List.replicate 150000 'a'))⟩
     (String.mk (List.replicate 150000 'a')) rfl
     (by rw [encodedByteLength_replicate_a]; omega)⟩

/-! ## SlideGenerationService: JSON values, `JSON.stringify` and `JSON.parse`

`Json` is the value domain of `JSON.parse` (numbers as integers: the
verified behaviour does not depend on fractional values).  Serialisation
and parsing work on `List Char`; `jsonStringify` models `JSON.stringify`
and `parseJson` models `JSON.parse` (returning `none` for a
`SyntaxError`). -/

inductive Json where
  | null : Json
  | bool : Bool → Json
  | num : Int → Json
  | str : String → Json
  | arr : List Json → Json
  | obj : List (String × Json) → Json

/-- `JSON.stringify`'s escaping of one string character: `"`, `\` and the
five named control escapes, `\u00XX` for the remaining control characters,
and the character itself otherwise. -/
def jsonEscapeChar (c : Char) : List Char :=
  if c = '"' then ['\\', '"']
  else if c = '\\' then ['\\', '\\']
  else if c = '\n' then ['\\', 'n']
  else if c = '\t' then ['\\', 't']
  else if c = '\r' then ['\\', 'r']
  else if c = '\x08' then ['\\', 'b']
  else if c = '\x0c' then ['\\', 'f']
  else if c.toNat < 32 then
    ['\\', 'u', '0', '0', Nat.digitChar (c.toNat / 16), Nat.digitChar (c.toNat % 16)]
  else [c]

/-- The characters of a JSON string literal for `s`. -/
def strLitChars (s : String) : List Char :=
  '"' :: ((s.data.map jsonEscapeChar).flatten ++ ['"'])

/-- Decimal digits of a natural number (most significant first). -/
def natChars (n : Nat) : List Char :=
  if n = 0 then ['0'] else ((Nat.digits 10 n).map Nat.digitChar).reverse

/-- Decimal representation of an integer. -/
def intChars (n : Int) : List Char :=
  if n < 0 then '-' :: natChars n.natAbs else natChars n.natAbs

mutual

/-- The characters of `JSON.stringify(j)` (no whitespace is emitted, as in
the JavaScript builtin). -/
def stringifyChars : Json → List Char
  | Json.null => ['n', 'u', 'l', 'l']
  | Json.bool true => ['t', 'r', 'u', 'e']
  | Json.bool false => ['f', 'a', 'l', 's', 'e']
  | Json.num n => intChars n
  | Json.str s => strLitChars s
  | Json.arr [] => ['[', ']']
  | Json.arr (x :: xs) => '[' :: (stringifyChars x ++ stringifyTail xs ++ [']'])
  | Json.obj [] => ['{', '}']
  | Json.obj (f :: fs) => '{' :: (fieldChars f ++ fieldTail fs ++ ['}'])

/-- `,`-separated serialisations of the remaining array elements. -/
def stringifyTail : List Json → List Char
  | [] => []
  | x :: xs => ',' :: (stringifyChars x ++ stringifyTail xs)

/-- Serialisation of one object field. -/
def fieldChars : String × Json → List Char
  | (k, v) => strLitChars k ++ ':' :: stringifyChars v

/-- `,`-separated serialisations of the remaining object fields. -/
def fieldTail : List (String × Json) → List Char
  | [] => []
  | f :: fs => ',' :: (fieldChars f ++ fieldTail fs)

end

/-- `JSON.stringify(j)` as a string. -/
def jsonStringify (j : Json) : String := String.mk (stringifyChars j)

mutual

/-- Fuel sufficient for `parseVal` to parse `stringifyChars j`. -/
def needV : Json → Nat
  | Json.arr xs => 1 + needL xs
  | Json.obj fs => 1 + needF fs
  | _ => 1

/-- Fuel sufficient for `parseElems` on serialised elements. -/
def needL : List Json → Nat
  | [] => 0
  | x :: xs => 1 + needV x + needL xs

/-- Fuel sufficient for `parseFields` on serialised fields. -/
def needF : List (String × Json) → Nat
  | [] => 0
  | f :: fs => 1 + needV f.snd + needF fs

end

/-- JSON insignificant whitespace. -/
def isJsonWs (c : Char) : Bool :=
  c = ' ' || c = '\n' || c = '\t' || c = '\r'

/-- Skip insignificant whitespace. -/
def skipWs : List Char → List Char
  | [] => []
  | c :: cs => if isJsonWs c then skipWs cs else c :: cs

/-- Consume an expected literal character sequence. -/
def expectLit : List Char → List Char → Option (List Char)
  | [], cs => some cs
  | _ :: _, [] => none
  | p :: ps, c :: cs => if c = p then expectLit ps cs else none

/-- Value of a hexadecimal digit character. -/
def hexVal (c : Char) : Option Nat :=
  if '0' ≤ c ∧ c ≤ '9' then some (c.toNat - '0'.toNat)
  else if 'a' ≤ c ∧ c ≤ 'f' then some (c.toNat - 'a'.toNat + 10)
  else if 'A' ≤ c ∧ c ≤ 'F' then some (c.toNat - 'A'.toNat + 10)
  else none

/-- The single-character escapes accepted by `JSON.parse`. -/
def unescapeSimple (e : Char) : Option Char :=
  if e = '"' then some '"'
  else if e = '\\' then some '\\'
  else if e = '/' then some '/'
  else if e = 'n' then some '\n'
  else if e = 't' then some '\t'
  else if e = 'r' then some '\r'
  else if e = 'b' then some '\x08'
  else if e = 'f' then some '\x0c'
  else none

/-- Parse the body of a JSON string literal (after the opening quote) up
to and including the closing quote; raw control characters are a syntax
error, as in `JSON.parse`. -/
def parseStrBody : List Char → Option (List Char × List Char)
  | [] => none
  | c :: rest =>
    if c = '"' then some ([], rest)
    else if c = '\\' then
      match rest with
      | [] => none
      | e :: rest2 =>
        if e = 'u' then
          match rest2 with
          | h1 :: h2 :: h3 :: h4 :: rest3 =>
            match hexVal h1, hexVal h2, hexVal h3, hexVal h4 with
            | some d1, some d2, some d3, some d4 =>
              match parseStrBody rest3 with
              | some (s, r) =>
                some (Char.ofNat (((d1 * 16 + d2) * 16 + d3) * 16 + d4) :: s, r)
              | none => none
            | _, _, _, _ => none
          | _ => none
        else
          match unescapeSimple e with
          | some c2 =>
            match parseStrBody rest2 with
            | some (s, r) => some (c2 :: s, r)
            | none => none
          | none => none
    else if c.toNat < 32 then none
    else
      match parseStrBody rest with
      | some (s, r) => some (c :: s, r)
      | none => none

/-- Numeric value of a decimal digit character. -/
def digitVal (c : Char) : Nat := c.toNat - '0'.toNat

/-- Value of a most-significant-first digit string. -/
def parseNatDigits (ds : List Char) : Nat :=
  ds.foldl (fun acc c => acc * 10 + digitVal c) 0

/-- Parse a JSON number.  Simplification relative to `JSON.parse`: only
optionally-signed integer literals are modelled (no fractions or
exponents, and leading zeros are accepted). -/
def parseNumber (cs : List Char) : Option (Json × List Char) :=
  match cs with
  | '-' :: rest =>
    let ds := rest.takeWhile Char.isDigit
    let r := rest.dropWhile Char.isDigit
    if ds.isEmpty then none
    else some (Json.num (-(Int.ofNat (parseNatDigits ds))), r)
  | _ =>
    let ds := cs.takeWhile Char.isDigit
    let r := cs.dropWhile Char.isDigit
    if ds.isEmpty then none
    else some (Json.num (Int.ofNat (parseNatDigits ds)), r)

mutual

/-- Parse one JSON value (fuel-indexed recursive descent modelling
`JSON.parse`). -/
def parseVal : Nat → List Char → Option (Json × List Char)
  | 0, _ => none
  | fuel + 1, cs =>
    match skipWs cs with
    | [] => none
    | c :: rest =>
      if c = 'n' then
        match expectLit ['u', 'l', 'l'] rest with
        | some r => some (Json.null, r)
        | none => none
      else if c = 't' then
        match expectLit ['r', 'u', 'e'] rest with
        | some r => some (Json.bool true, r)
        | none => none
      else if c = 'f' then
        match expectLit ['a', 'l', 's', 'e'] rest with
        | some r => some (Json.bool false, r)
        | none => none
      else if c = '"' then
        match parseStrBody rest with
        | some (body, r) => some (Json.str (String.mk body), r)
        | none => none
      else if c = '[' then
        match skipWs rest with
        | ']' :: r => some (Json.arr [], r)
        | cs2 =>
          match parseElems fuel cs2 with
          | some (xs, r) => some (Json.arr xs, r)
          | none => none
      else if c = '{' then
        match skipWs rest with
        | '}' :: r => some (Json.obj [], r)
        | cs2 =>
          match parseFields fuel cs2 with
          | some (fs, r) => some (Json.obj fs, r)
          | none => none
      else if c = '-' || c.isDigit then
        parseNumber (c :: rest)
      else none

/-- Parse the elements of a non-empty array (after the opening bracket). -/
def parseElems : Nat → List Char → Option (List Json × List Char)
  | 0, _ => none
  | fuel + 1, cs =>
    match parseVal fuel cs with
    | none => none
    | some (v, r) =>
      match skipWs r with
      | ',' :: r2 =>
        match parseElems fuel r2 with
        | some (vs, r3) => some (v :: vs, r3)
        | none => none
      | ']' :: r2 => some ([v], r2)
      | _ => none

/-- Parse the fields of a non-empty object (after the opening brace). -/
def parseFields : Nat → List Char → Option (List (String × Json) × List Char)
  | 0, _ => none
  | fuel + 1, cs =>
    match skipWs cs with
    | '"' :: r =>
      match parseStrBody r with
      | none => none
      | some (k, r2) =>
        match skipWs r2 with
        | ':' :: r3 =>
          match parseVal fuel r3 with
          | none => none
          | some (v, r4) =>
            match skipWs r4 with
            | ',' :: r5 =>
              match parseFields fuel r5 with
              | some (fs, r6) => some ((String.mk k, v) :: fs, r6)
              | none => none
            | '}' :: r5 => some ([(String.mk k, v)], r5)
            | _ => none
        | _ => none
    | _ => none

end

/-- `JSON.parse(s)`: `none` models a thrown `SyntaxError`.  Only trailing
whitespace may follow the value. -/
def parseJson (s : String) : Option Json :=
  match parseVal (s.data.length + 1) s.data with
  | some (j, r) => if (skipWs r).isEmpty then some j else none
  | none => none

/-! ### Round-trip: numbers -/

theorem digitChar_isDigit {d : Nat} (h : d < 10) :
    (Nat.digitChar d).isDigit = true := by
  interval_cases d <;> decide

theorem digitVal_digitChar {d : Nat} (h : d < 10) :
    digitVal (Nat.digitChar d) = d := by
  interval_cases d <;> decide

theorem natChars_digits {n : Nat} : ∀ c ∈ natChars n, c.isDigit = true := by
  intro c hc
  unfold natChars at hc
  split at hc
  · simp at hc
    subst hc
    decide
  · rw [List.mem_reverse, List.mem_map] at hc
    obtain ⟨d, hd, rfl⟩ := hc
    exact digitChar_isDigit (Nat.digits_lt_base (by norm_num) hd)

theorem natChars_ne_nil {n : Nat} : natChars n ≠ [] := by
  unfold natChars
  split
  · simp
  · simp [Nat.digits_ne_nil_iff_ne_zero, *]

theorem foldl_digitChar_reverse (L : List Nat) (hL : ∀ d ∈ L, d < 10) :
    ∀ acc : Nat,
      List.foldl (fun acc c => acc * 10 + digitVal c) acc
        ((L.map Nat.digitChar).reverse)
      = acc * 10 ^ L.length + Nat.ofDigits 10 L := by
  induction L with
  | nil => intro acc; simp
  | cons d ds ih =>
    intro acc
    have hd : d < 10 := hL d (List.mem_cons_self d ds)
    have hds : ∀ e ∈ ds, e < 10 := fun e he => hL e (List.mem_cons_of_mem d he)
    simp only [List.map_cons, List.reverse_cons, List.foldl_append,
      List.foldl_cons, List.foldl_nil, ih hds acc]
    rw [digitVal_digitChar hd, Nat.ofDigits_cons, List.length_cons, pow_succ]
    ring

theorem parseNatDigits_natChars (n : Nat) : parseNatDigits (natChars n) = n := by
  unfold natChars parseNatDigits
  split
  · subst n
    rfl
  · rw [foldl_digitChar_reverse _ (fun d hd => Nat.digits_lt_base (by norm_num) hd)]
    simpa using congrArg (fun m => (m : Nat)) (Nat.ofDigits_digits 10 n)

/-- `rest` cannot extend a trailing number token. -/
def NumBoundary (cs : List Char) : Prop :=
  ∀ c, cs.head? = some c → c.isDigit = false

theorem takeWhile_all_append {p : Char → Bool} {ds rest : List Char}
    (h : ∀ c ∈ ds, p c = true) (hr : ∀ c, rest.head? = some c → p c = false) :
    (ds ++ rest).takeWhile p = ds ∧ (ds ++ rest).dropWhile p = rest := by
  induction ds with
  | nil =>
    simp only [List.nil_append]
    cases rest with
    | nil => simp
    | cons r rs =>
      have := hr r rfl
      simp [List.takeWhile, List.dropWhile, this]
  | cons d ds2 ih =>
    have hd := h d (List.mem_cons_self d ds2)
    obtain ⟨h1, h2⟩ := ih (fun c hc => h c (List.mem_cons_of_mem d hc))
    simp [List.takeWhile, List.dropWhile, hd, h1, h2]

theorem natChars_isEmpty_false (n : Nat) : (natChars n).isEmpty = false := by
  rw [List.isEmpty_eq_false]
  exact natChars_ne_nil

theorem parseNumber_intChars (n : Int) {rest : List Char} (hr : NumBoundary rest) :
    parseNumber (intChars n ++ rest) = some (Json.num n, rest) := by
  have htd : (natChars n.natAbs ++ rest).takeWhile Char.isDigit = natChars n.natAbs
      ∧ (natChars n.natAbs ++ rest).dropWhile Char.isDigit = rest :=
    takeWhile_all_append natChars_digits hr
  obtain ⟨ht, hd⟩ := htd
  unfold intChars
  split
  · rename_i hneg
    show parseNumber ('-' :: (natChars n.natAbs ++ rest)) = _
    unfold parseNumber
    simp only [ht, hd, natChars_isEmpty_false, Bool.false_eq_true, if_false]
    rw [parseNatDigits_natChars]
    have hv : -(Int.ofNat n.natAbs) = n := by
      simp only [Int.ofNat_eq_natCast]
      omega
    rw [hv]
  · rename_i hneg
    obtain ⟨d, ds2, hcons⟩ := List.exists_cons_of_ne_nil (natChars_ne_nil (n := n.natAbs))
    have hdig : d.isDigit = true := by
      apply natChars_digits (n := n.natAbs)
      rw [hcons]
      exact List.mem_cons_self d ds2
    have hdm : d ≠ '-' := by
      rintro rfl
      simp at hdig
    rw [hcons, List.cons_append]
    unfold parseNumber
    split
    · rename_i heq
      rw [List.cons.injEq] at heq
      exact absurd heq.1 hdm
    · rw [← List.cons_append, ← hcons]
      simp only [ht, hd, natChars_isEmpty_false, Bool.false_eq_true, if_false]
      rw [parseNatDigits_natChars]
      have hv : Int.ofNat n.natAbs = n := by
        simp only [Int.ofNat_eq_natCast]
        omega
      rw [hv]

theorem hexVal_digitChar {d : Nat} (h : d < 16) :
    hexVal (Nat.digitChar d) = some d := by
  interval_cases d <;> decide

theorem parseStrBody_escape :
    ∀ (cs : List Char) (rest : List Char),
      parseStrBody ((cs.map jsonEscapeChar).flatten ++ '"' :: rest)
        = some (cs, rest) := by
  intro cs
  induction cs with
  | nil =>
    intro rest
    rw [List.map_nil, List.flatten_nil, List.nil_append, parseStrBody.eq_def]
    simp
  | cons c cs2 ih =>
    intro rest
    simp only [List.map_cons, List.flatten_cons, List.append_assoc]
    by_cases h1 : c = '"'
    · subst h1
      rw [show jsonEscapeChar '"' = ['\\', '"'] from rfl, List.cons_append,
        List.cons_append, List.nil_append, parseStrBody.eq_def]
      simp [unescapeSimple, ih rest]
    · by_cases h2 : c = '\\'
      · subst h2
        rw [show jsonEscapeChar '\\' = ['\\', '\\'] from rfl, List.cons_append,
          List.cons_append, List.nil_append, parseStrBody.eq_def]
        simp [unescapeSimple, ih rest]
      · by_cases h3 : c = '\n'
        · subst h3
          rw [show jsonEscapeChar '\n' = ['\\', 'n'] from rfl, List.cons_append,
            List.cons_append, List.nil_append, parseStrBody.eq_def]
          simp [unescapeSimple, ih rest]
        · by_cases h4 : c = '\t'
          · subst h4
            rw [show jsonEscapeChar '\t' = ['\\', 't'] from rfl, List.cons_append,
              List.cons_append, List.nil_append, parseStrBody.eq_def]
            simp [unescapeSimple, ih rest]
          · by_cases h5 : c = '\r'
            · subst h5
              rw [show jsonEscapeChar '\r' = ['\\', 'r'] from rfl, List.cons_append,
                List.cons_append, List.nil_append, parseStrBody.eq_def]
              simp [unescapeSimple, ih rest]
            · by_cases h6 : c = '\x08'
              · subst h6
                rw [show jsonEscapeChar '\x08' = ['\\', 'b'] from rfl, List.cons_append,
                  List.cons_append, List.nil_append, parseStrBody.eq_def]
                simp [unescapeSimple, ih rest]
              · by_cases h7 : c = '\x0c'
                · subst h7
                  rw [show jsonEscapeChar '\x0c' = ['\\', 'f'] from rfl, List.cons_append,
                    List.cons_append, List.nil_append, parseStrBody.eq_def]
                  simp [unescapeSimple, ih rest]
                · by_cases h8 : c.toNat < 32
                  · have hesc : jsonEscapeChar c =
                        ['\\', 'u', '0', '0', Nat.digitChar (c.toNat / 16),
                         Nat.digitChar (c.toNat % 16)] := by
                      unfold jsonEscapeChar
                      simp [h1, h2, h3, h4, h5, h6, h7, h8]
                    have hdivlt : c.toNat / 16 < 16 := by omega
                    have hmodlt : c.toNat % 16 < 16 := by omega
                    rw [hesc]
                    simp only [List.cons_append, List.nil_append]
                    rw [parseStrBody.eq_def]
                    have h0 : hexVal '0' = some 0 := rfl
                    simp [h0, hexVal_digitChar hdivlt,
                      hexVal_digitChar hmodlt, ih rest]
                    have hval : c.toNat / 16 * 16 + c.toNat % 16 = c.toNat := by
                      omega
                    rw [hval, Char.ofNat_toNat]
                  · have hesc : jsonEscapeChar c = [c] := by
                      unfold jsonEscapeChar
                      simp [h1, h2, h3, h4, h5, h6, h7, h8]
                    rw [hesc]
                    simp only [List.cons_append, List.nil_append]
                    rw [parseStrBody.eq_def]
                    simp [h1, h2, h8, ih rest]

/-- Characters that can start a serialised JSON value. -/
def startChar (c : Char) : Prop :=
  c = 'n' ∨ c = 't' ∨ c = 'f' ∨ c = '-' ∨ c.isDigit = true ∨ c = '"' ∨
    c = '[' ∨ c = '{'

theorem digit_ne {c d : Char} (h : c.isDigit = true) (hd : d.isDigit = false) :
    c ≠ d := by
  rintro rfl
  rw [h] at hd
  exact Bool.noConfusion hd

theorem stringify_head (j : Json) :
    ∃ c cs2, stringifyChars j = c :: cs2 ∧ startChar c := by
  cases j with
  | null => exact ⟨'n', _, rfl, Or.inl rfl⟩
  | bool b =>
    cases b
    · exact ⟨'f', _, rfl, Or.inr (Or.inr (Or.inl rfl))⟩
    · exact ⟨'t', _, rfl, Or.inr (Or.inl rfl)⟩
  | num n =>
    show ∃ c cs2, intChars n = c :: cs2 ∧ startChar c
    unfold intChars
    split
    · exact ⟨'-', _, rfl, Or.inr (Or.inr (Or.inr (Or.inl rfl)))⟩
    · obtain ⟨d, ds, hcons⟩ := List.exists_cons_of_ne_nil
        (natChars_ne_nil (n := n.natAbs))
      refine ⟨d, ds, hcons, Or.inr (Or.inr (Or.inr (Or.inr (Or.inl ?_))))⟩
      apply natChars_digits (n := n.natAbs)
      rw [hcons]
      exact List.mem_cons_self d ds
  | str s => exact ⟨'"', _, rfl, Or.inr (Or.inr (Or.inr (Or.inr (Or.inr (Or.inl rfl)))))⟩
  | arr xs =>
    cases xs with
    | nil => exact ⟨'[', _, rfl, Or.inr (Or.inr (Or.inr (Or.inr (Or.inr (Or.inr (Or.inl rfl))))))⟩
    | cons x xs2 => exact ⟨'[', _, rfl, Or.inr (Or.inr (Or.inr (Or.inr (Or.inr (Or.inr (Or.inl rfl))))))⟩
  | obj fs =>
    cases fs with
    | nil => exact ⟨'{', _, rfl, Or.inr (Or.inr (Or.inr (Or.inr (Or.inr (Or.inr (Or.inr rfl))))))⟩
    | cons f fs2 => exact ⟨'{', _, rfl, Or.inr (Or.inr (Or.inr (Or.inr (Or.inr (Or.inr (Or.inr rfl))))))⟩

theorem startChar_not_ws {c : Char} (h : startChar c) : isJsonWs c = false := by
  rcases h with rfl | rfl | rfl | rfl | h | rfl | rfl | rfl
  · rfl
  · rfl
  · rfl
  · rfl
  · have h1 : c ≠ ' ' := digit_ne h (by decide)
    have h2 : c ≠ '\n' := digit_ne h (by decide)
    have h3 : c ≠ '\t' := digit_ne h (by decide)
    have h4 : c ≠ '\r' := digit_ne h (by decide)
    simp [isJsonWs, h1, h2, h3, h4]
  · rfl
  · rfl
  · rfl

theorem startChar_ne {c d : Char} (h : startChar c) (hd : d.isDigit = false)
    (hn : d ≠ 'n') (ht : d ≠ 't') (hf : d ≠ 'f') (hm : d ≠ '-')
    (hq : d ≠ '"') (hlb : d ≠ '[') (hob : d ≠ '{') : c ≠ d := by
  rcases h with rfl | rfl | rfl | rfl | h | rfl | rfl | rfl
  · exact fun he => hn he.symm
  · exact fun he => ht he.symm
  · exact fun he => hf he.symm
  · exact fun he => hm he.symm
  · exact digit_ne h hd
  · exact fun he => hq he.symm
  · exact fun he => hlb he.symm
  · exact fun he => hob he.symm

theorem skipWs_of_startChar {c : Char} (h : startChar c) (cs : List Char) :
    skipWs (c :: cs) = c :: cs := by
  simp [skipWs, startChar_not_ws h]

theorem skipWs_stringify (j : Json) (rest : List Char) :
    skipWs (stringifyChars j ++ rest) = stringifyChars j ++ rest := by
  obtain ⟨c, cs2, hc, hs⟩ := stringify_head j
  rw [hc, List.cons_append, skipWs_of_startChar hs]

theorem needV_pos (j : Json) : 1 ≤ needV j := by
  cases j <;> simp [needV]

theorem needV_le_length : ∀ fuel : Nat,
    (∀ j : Json, needV j ≤ fuel → needV j ≤ (stringifyChars j).length)
    ∧ (∀ xs : List Json, needL xs ≤ fuel → needL xs ≤ (stringifyTail xs).length)
    ∧ (∀ fs : List (String × Json),
        needF fs ≤ fuel → needF fs ≤ (fieldTail fs).length) := by
  intro fuel
  induction fuel with
  | zero =>
    refine ⟨fun j hj => absurd (le_trans (needV_pos j) hj) (by omega), ?_, ?_⟩
    · intro xs hxs
      cases xs with
      | nil => simp [needL]
      | cons x xs2 => simp [needL] at hxs
    · intro fs hfs
      cases fs with
      | nil => simp [needF]
      | cons f fs2 => simp [needF] at hfs
  | succ fuel ih =>
    obtain ⟨ihV, ihL, ihF⟩ := ih
    have partV : ∀ j : Json, needV j ≤ fuel + 1 →
        needV j ≤ (stringifyChars j).length := by
      intro j hj
      cases j with
      | null => simp [needV, stringifyChars]
      | bool b => cases b <;> simp [needV, stringifyChars]
      | num n =>
        have : (intChars n).length ≥ 1 := by
          unfold intChars
          split
          · simp
          · have := natChars_ne_nil (n := n.natAbs)
            cases hc : natChars n.natAbs with
            | nil => exact absurd hc this
            | cons d ds => simp [hc]
        simpa [needV, stringifyChars] using this
      | str s => simp [needV, stringifyChars, strLitChars]
      | arr xs =>
        cases xs with
        | nil => simp [needV, needL, stringifyChars]
        | cons x xs2 =>
          simp only [needV, needL, stringifyChars] at hj ⊢
          have h1 : needV x ≤ (stringifyChars x).length := ihV x (by omega)
          have h2 : needL xs2 ≤ (stringifyTail xs2).length := ihL xs2 (by omega)
          simp only [List.length_cons, List.length_append]
          omega
      | obj fs =>
        cases fs with
        | nil => simp [needV, needF, stringifyChars]
        | cons f fs2 =>
          simp only [needV, needF, stringifyChars] at hj ⊢
          have h1 : needV f.snd ≤ (stringifyChars f.snd).length := ihV f.snd (by omega)
          have h2 : needF fs2 ≤ (fieldTail fs2).length := ihF fs2 (by omega)
          have h3 : (fieldChars f).length
              = (strLitChars f.fst).length + 1 + (stringifyChars f.snd).length := by
            obtain ⟨k, v⟩ := f
            simp [fieldChars]
            omega
          simp only [List.length_cons, List.length_append]
          omega
    refine ⟨partV, ?_, ?_⟩
    · intro xs hxs
      cases xs with
      | nil => simp [needL]
      | cons x xs2 =>
        simp only [needL, stringifyTail] at hxs ⊢
        have h1 : needV x ≤ (stringifyChars x).length := partV x (by omega)
        have h2 : needL xs2 ≤ (stringifyTail xs2).length := ihL xs2 (by omega)
        simp only [List.length_cons, List.length_append]
        omega
    · intro fs hfs
      cases fs with
      | nil => simp [needF]
      | cons f fs2 =>
        simp only [needF, fieldTail] at hfs ⊢
        have h1 : needV f.snd ≤ (stringifyChars f.snd).length := partV f.snd (by omega)
        have h2 : needF fs2 ≤ (fieldTail fs2).length := ihF fs2 (by omega)
        have h3 : (fieldChars f).length
            = (strLitChars f.fst).length + 1 + (stringifyChars f.snd).length := by
          obtain ⟨k, v⟩ := f
          simp [fieldChars]
          omega
        simp only [List.length_cons, List.length_append]
        omega

theorem intChars_head (n : Int) :
    ∃ c cs2, intChars n = c :: cs2 ∧ (c = '-' ∨ c.isDigit = true) := by
  unfold intChars
  split
  · exact ⟨'-', _, rfl, Or.inl rfl⟩
  · obtain ⟨d, ds, hcons⟩ := List.exists_cons_of_ne_nil
      (natChars_ne_nil (n := n.natAbs))
    refine ⟨d, ds, hcons, Or.inr ?_⟩
    apply natChars_digits (n := n.natAbs)
    rw [hcons]
    exact List.mem_cons_self d ds

theorem skipWs_cons_not_ws {c : Char} (h : isJsonWs c = false)
    (cs : List Char) : skipWs (c :: cs) = c :: cs := by
  simp [skipWs, h]

theorem parse_stringify : ∀ fuel : Nat,
    (∀ (j : Json) (rest : List Char), needV j ≤ fuel → NumBoundary rest →
      parseVal fuel (stringifyChars j ++ rest) = some (j, rest))
    ∧ (∀ (x : Json) (xs : List Json) (rest : List Char),
      1 + needV x + needL xs ≤ fuel →
      parseElems fuel (stringifyChars x ++ (stringifyTail xs ++ ']' :: rest))
        = some (x :: xs, rest))
    ∧ (∀ (k : String) (v : Json) (fs : List (String × Json)) (rest : List Char),
      1 + needV v + needF fs ≤ fuel →
      parseFields fuel
          (strLitChars k ++ (':' :: (stringifyChars v ++ (fieldTail fs ++ '}' :: rest))))
        = some ((k, v) :: fs, rest)) := by
  intro fuel
  induction fuel with
  | zero =>
    refine ⟨fun j rest hj _ => absurd (le_trans (needV_pos j) hj) (by omega),
      fun x xs rest h => absurd h (by omega),
      fun k v fs rest h => absurd h (by omega)⟩
  | succ fuel ih =>
    obtain ⟨ihV, ihE, ihF⟩ := ih
    have partV : ∀ (j : Json) (rest : List Char), needV j ≤ fuel + 1 →
        NumBoundary rest →
        parseVal (fuel + 1) (stringifyChars j ++ rest) = some (j, rest) := by
      intro j rest hj hb
      cases j with
      | null => simp [parseVal, stringifyChars, skipWs, isJsonWs, expectLit]
      | bool b =>
        cases b <;> simp [parseVal, stringifyChars, skipWs, isJsonWs, expectLit]
      | num n =>
        obtain ⟨c, cs2, hc, hs⟩ := intChars_head n
        have hnws : isJsonWs c = false := by
          rcases hs with rfl | h
          · rfl
          · have h1 : c ≠ ' ' := digit_ne h (by decide)
            have h2 : c ≠ '\n' := digit_ne h (by decide)
            have h3 : c ≠ '\t' := digit_ne h (by decide)
            have h4 : c ≠ '\r' := digit_ne h (by decide)
            simp [isJsonWs, h1, h2, h3, h4]
        have hn1 : ¬ c = 'n' := by
          rcases hs with rfl | h
          · decide
          · exact digit_ne h (by decide)
        have hn2 : ¬ c = 't' := by
          rcases hs with rfl | h
          · decide
          · exact digit_ne h (by decide)
        have hn3 : ¬ c = 'f' := by
          rcases hs with rfl | h
          · decide
          · exact digit_ne h (by decide)
        have hn4 : ¬ c = '"' := by
          rcases hs with rfl | h
          · decide
          · exact digit_ne h (by decide)
        have hn5 : ¬ c = '[' := by
          rcases hs with rfl | h
          · decide
          · exact digit_ne h (by decide)
        have hn6 : ¬ c = '{' := by
          rcases hs with rfl | h
          · decide
          · exact digit_ne h (by decide)
        have hcond : (c = '-' || c.isDigit) = true := by
          rcases hs with rfl | h
          · simp
          · simp [h]
        show parseVal (fuel + 1) (intChars n ++ rest) = some (Json.num n, rest)
        simp only [parseVal]
        rw [hc, List.cons_append, skipWs_cons_not_ws hnws]
        simp only []
        rw [if_neg hn1, if_neg hn2, if_neg hn3,
          if_neg hn4, if_neg hn5, if_neg hn6, if_pos hcond]
        rw [← List.cons_append, ← hc]
        exact parseNumber_intChars n hb
      | str s =>
        simp only [stringifyChars, strLitChars, List.cons_append, List.append_assoc]
        simp only [parseVal]
        rw [skipWs_of_startChar
          (Or.inr (Or.inr (Or.inr (Or.inr (Or.inr (Or.inl rfl))))))]
        have hq : parseStrBody ((List.map jsonEscapeChar s.data).flatten
            ++ '"' :: rest) = some (s.data, rest) := parseStrBody_escape s.data rest
        simp [hq]
      | arr xs =>
        cases xs with
        | nil =>
          simp only [stringifyChars, List.cons_append]
          simp only [parseVal]
          rw [skipWs_of_startChar
            (Or.inr (Or.inr (Or.inr (Or.inr (Or.inr (Or.inr (Or.inl rfl)))))))]
          simp only []
          rw [if_neg (by decide), if_neg (by decide), if_neg (by decide),
            if_neg (by decide), if_pos trivial]
          simp [skipWs, isJsonWs]
        | cons x xs2 =>
          simp only [stringifyChars, List.cons_append, List.append_assoc]
          simp only [parseVal]
          rw [skipWs_of_startChar
            (Or.inr (Or.inr (Or.inr (Or.inr (Or.inr (Or.inr (Or.inl rfl)))))))]
          simp only [List.nil_append]
          rw [if_neg (by decide), if_neg (by decide), if_neg (by decide),
            if_neg (by decide), if_pos trivial]
          have hE : parseElems fuel
              (stringifyChars x ++ (stringifyTail xs2 ++ ']' :: rest))
              = some (x :: xs2, rest) := by
            apply ihE
            simp only [needV, needL] at hj
            omega
          have hsw : skipWs (stringifyChars x ++ (stringifyTail xs2 ++ ']' :: rest))
              = stringifyChars x ++ (stringifyTail xs2 ++ ']' :: rest) :=
            skipWs_stringify x _
          obtain ⟨c, cs2, hc, hs⟩ := stringify_head x
          have hne : c ≠ ']' := startChar_ne hs (by decide) (by decide) (by decide)
            (by decide) (by decide) (by decide) (by decide) (by decide)
          rw [hsw, hc, List.cons_append]
          split
          · rename_i r heq
            rw [List.cons.injEq] at heq
            exact absurd heq.1 hne
          · rw [← List.cons_append, ← hc, hE]
      | obj fs =>
        cases fs with
        | nil =>
          simp only [stringifyChars, List.cons_append]
          simp only [parseVal]
          rw [skipWs_of_startChar
            (Or.inr (Or.inr (Or.inr (Or.inr (Or.inr (Or.inr (Or.inr rfl)))))))]
          simp only []
          rw [if_neg (by decide), if_neg (by decide), if_neg (by decide),
            if_neg (by decide), if_neg (by decide), if_pos trivial]
          simp [skipWs, isJsonWs]
        | cons f fs2 =>
          obtain ⟨k, v⟩ := f
          simp only [stringifyChars, fieldChars, List.cons_append,
            List.append_assoc]
          simp only [parseVal]
          rw [skipWs_of_startChar
            (Or.inr (Or.inr (Or.inr (Or.inr (Or.inr (Or.inr (Or.inr rfl)))))))]
          simp only [List.nil_append]
          rw [if_neg (by decide), if_neg (by decide), if_neg (by decide),
            if_neg (by decide), if_neg (by decide), if_pos trivial]
          have hF : parseFields fuel
              (strLitChars k ++ (':' :: (stringifyChars v
                ++ (fieldTail fs2 ++ '}' :: rest))))
              = some ((k, v) :: fs2, rest) := by
            apply ihF
            simp only [needV, needF] at hj
            omega
          have hstart : startChar '"' :=
            Or.inr (Or.inr (Or.inr (Or.inr (Or.inr (Or.inl rfl)))))
          have hsw : skipWs (strLitChars k ++ (':' :: (stringifyChars v
              ++ (fieldTail fs2 ++ '}' :: rest))))
              = strLitChars k ++ (':' :: (stringifyChars v
                ++ (fieldTail fs2 ++ '}' :: rest))) := by
            rw [strLitChars, List.cons_append, skipWs_of_startChar hstart]
          rw [hsw, strLitChars, List.cons_append]
          split
          · rename_i r heq
            rw [List.cons.injEq] at heq
            exact absurd heq.1 (by decide)
          · rw [← List.cons_append, ← strLitChars, hF]
    refine ⟨partV, ?_, ?_⟩
    · intro x xs rest hfuel
      simp only [parseElems]
      have hb : NumBoundary (stringifyTail xs ++ ']' :: rest) := by
        cases xs with
        | nil =>
          intro c hc
          simp only [stringifyTail, List.nil_append, List.head?_cons,
            Option.some.injEq] at hc
          subst hc
          decide
        | cons y ys =>
          intro c hc
          simp only [stringifyTail, List.cons_append, List.head?_cons,
            Option.some.injEq] at hc
          subst hc
          decide
      rw [ihV x _ (by omega) hb]
      simp only []
      cases xs with
      | nil =>
        simp only [stringifyTail, List.nil_append]
        rw [skipWs_cons_not_ws (by decide)]
        rfl
      | cons y ys =>
        simp only [stringifyTail, List.cons_append, List.append_assoc]
        rw [skipWs_cons_not_ws (by decide)]
        simp only []
        have hE2 : parseElems fuel
            (stringifyChars y ++ (stringifyTail ys ++ ']' :: rest))
            = some (y :: ys, rest) := by
          apply ihE
          have h1 := needV_pos x
          simp only [needL] at hfuel
          omega
        rw [hE2]
    · intro k v fs rest hfuel
      simp only [parseFields]
      have hstart : startChar '"' :=
        Or.inr (Or.inr (Or.inr (Or.inr (Or.inr (Or.inl rfl)))))
      rw [strLitChars, List.cons_append, skipWs_of_startChar hstart]
      simp only []
      rw [List.append_assoc, List.singleton_append]
      have hq : parseStrBody ((List.map jsonEscapeChar k.data).flatten
          ++ '"' :: (':' :: (stringifyChars v ++ (fieldTail fs ++ '}' :: rest))))
          = some (k.data, ':' :: (stringifyChars v ++ (fieldTail fs ++ '}' :: rest))) :=
        parseStrBody_escape k.data _
      rw [hq]
      simp only []
      rw [skipWs_cons_not_ws (by decide)]
      simp only []
      have hb2 : NumBoundary (fieldTail fs ++ '}' :: rest) := by
        cases fs with
        | nil =>
          intro c hc
          simp only [fieldTail, List.nil_append, List.head?_cons,
            Option.some.injEq] at hc
          subst hc
          decide
        | cons g gs =>
          intro c hc
          simp only [fieldTail, List.cons_append, List.head?_cons,
            Option.some.injEq] at hc
          subst hc
          decide
      have hV : parseVal fuel (stringifyChars v ++ (fieldTail fs ++ '}' :: rest))
          = some (v, fieldTail fs ++ '}' :: rest) :=
        ihV v _ (by omega) hb2
      rw [hV]
      simp only []
      cases fs with
      | nil =>
        simp only [fieldTail, List.nil_append]
        rw [skipWs_cons_not_ws (by decide)]
        rfl
      | cons g gs =>
        obtain ⟨k2, v2⟩ := g
        simp only [fieldTail, fieldChars, List.cons_append, List.append_assoc]
        rw [skipWs_cons_not_ws (by decide)]
        simp only []
        have hF2 : parseFields fuel
            (strLitChars k2 ++ (':' :: (stringifyChars v2
              ++ (fieldTail gs ++ '}' :: rest))))
            = some ((k2, v2) :: gs, rest) := by
          apply ihF
          have h1 := needV_pos v
          simp only [needF] at hfuel
          omega
        rw [hF2]

/-- The serialiser-parser round trip: `JSON.parse(JSON.stringify(j))`
recovers `j`, so every `JSON.stringify` output is syntactically valid
JSON. -/
theorem parseJson_jsonStringify (j : Json) :
    parseJson (jsonStringify j) = some j := by
  unfold parseJson jsonStringify
  have hneed : needV j ≤ (stringifyChars j).length + 1 := by
    have := (needV_le_length (needV j)).1 j le_rfl
    omega
  have h := (parse_stringify ((stringifyChars j).length + 1)).1 j []
    hneed (fun c hc => by simp at hc)
  rw [List.append_nil] at h
  show (match parseVal ((stringifyChars j).length + 1) (stringifyChars j) with
    | some (j, r) => if (skipWs r).isEmpty then some j else none
    | none => none) = some j
  rw [h]
  rfl

/-! ## SlideGenerationService: `cleanJsonResponse` and `executeSubTask` -/

/-- `needle` occurs as a prefix of `haystack`. -/
def isPre : List Char → List Char → Bool
  | [], _ => true
  | _ :: _, [] => false
  | p :: ps, c :: cs => p = c && isPre ps cs

/-- `haystack.includes(needle)` on character lists. -/
def containsSeq (pat : List Char) : List Char → Bool
  | [] => isPre pat []
  | c :: cs => isPre pat (c :: cs) || containsSeq pat cs

/-- Left-to-right non-overlapping replacement of the pattern
`p :: ps` by `repl`: the model of `String.prototype.replace` with a global
literal pattern. -/
def replaceSeq (p : Char) (ps : List Char) (repl : List Char) :
    List Char → List Char
  | [] => []
  | c :: cs =>
    if isPre (p :: ps) (c :: cs) then
      repl ++ replaceSeq p ps repl (cs.drop ps.length)
    else
      c :: replaceSeq p ps repl cs
termination_by l => l.length
decreasing_by
  · simp
    omega
  · simp

/-- JavaScript `String.prototype.trim` whitespace. -/
def isTrimWs (c : Char) : Bool :=
  c = ' ' || c = '\n' || c = '\t' || c = '\r' || c = '\x0c' || c = '\x0b'

/-- `content.trim()`. -/
def trimChars (cs : List Char) : List Char :=
  ((cs.dropWhile isTrimWs).reverse.dropWhile isTrimWs).reverse

/-- `content.replace(/^\n+|\n+$/g, '')`. -/
def stripEdgeNl (cs : List Char) : List Char :=
  ((cs.dropWhile (fun c => c = '\n')).reverse.dropWhile
    (fun c => c = '\n')).reverse

/-- `SlideGenerationService.cleanJsonResponse`, translated step for step:
strip markdown code fences when backticks are present, trim, strip edge
newlines when the (dead in practice) condition fires, and slice from the
first `\x7b` to the last `\x7d` when both exist. -/
def cleanJsonResponse (content : String) : String :=
  let c0 := content.data
  let c1 := if containsSeq ['`', '`', '`'] c0 then
      replaceSeq '`' ['`', '`', 'j', 's', 'o', 'n', '\n'] []
        (replaceSeq '`' ['`', '`', 'j', 's', 'o', 'n'] []
          (replaceSeq '`' ['`', '`', '\n'] []
            (replaceSeq '`' ['`', '`'] [] c0)))
    else c0
  let c2 := trimChars c1
  let c3 := if c2.head? = some '\n' || containsSeq ['`', '`', '`'] c2 then
      stripEdgeNl c2
    else c2
  let jEnd : Option Nat := match (c3.reverse.findIdx? (fun c => c = '}')) with
    | some rk => some (c3.length - 1 - rk)
    | none => none
  match c3.findIdx? (fun c => c = '{'), jEnd with
  | some i, some jdx => String.mk ((c3.take (jdx + 1)).drop i)
  | _, _ => String.mk c3

/-- The hard-coded fallbacks of `getFallbackResponse`, as JSON values. -/
def fallbackJson : SubTaskType → Json
  | SubTaskType.title => Json.obj [("title", Json.str "Analysis Results")]
  | SubTaskType.keyPoints =>
      Json.obj [("points", Json.arr [Json.str "Data analysis in progress"])]
  | SubTaskType.recommendations =>
      Json.obj [("recommendations", Json.arr [Json.str "Analysis pending"])]
  | SubTaskType.visualization =>
      Json.obj [("type", Json.str "Bar Chart"), ("keyElements", Json.arr [])]
  | SubTaskType.summary =>
      Json.obj [("overview", Json.str "Analysis pending"),
                ("keyPoints", Json.arr [])]

/-- The `{ type, content }` object returned by `executeSubTask`. -/
structure SubTaskOutput where
  type : SubTaskType
  content : String

/-- The response handling of `executeSubTask`, given the backend's
message text: clean it, `JSON.parse` it, and on success re-serialise the
parsed value; on a parse error fall back to
`JSON.stringify(getFallbackResponse(type))`. -/
def executeSubTaskContent (ty : SubTaskType) (rawContent : String) :
    SubTaskOutput :=
  let clean := cleanJsonResponse rawContent
  match parseJson clean with
  | some j => ⟨ty, jsonStringify j⟩
  | none => ⟨ty, jsonStringify (fallbackJson ty)⟩

/-! ## Claim C6: the executor always returns valid JSON content -/

/-- Claim C6: for every sub-task type and every backend message text, the
executor returns `{ type, content }` with the given type and with
`content` a syntactically valid JSON string — it never propagates a parse
error, because unparseable text is replaced by the serialised fallback;
in particular, for type `title` and the backend text `"not json"`, the
returned content parses to the object with `title = "Analysis Results"`. -/
theorem C6_executor_valid_json :
    (∀ (ty : SubTaskType) (raw : String),
      (executeSubTaskContent ty raw).type = ty
      ∧ ∃ j : Json, parseJson ((executeSubTaskContent ty raw).content) = some j)
    ∧ parseJson ((executeSubTaskContent SubTaskType.title "not json").content)
        = some (Json.obj [("title", Json.str "Analysis Results")]) := by
  constructor
  · intro ty raw
    simp only [executeSubTaskContent]
    cases hp : parseJson (cleanJsonResponse raw) with
    | some j =>
      simp only [hp]
      exact ⟨trivial, j, parseJson_jsonStringify j⟩
    | none =>
      simp only [hp]
      exact ⟨trivial, fallbackJson ty, parseJson_jsonStringify (fallbackJson ty)⟩
  · rfl
